import Mathlib

/-!
# Verification of the transcoding subsystem of `watch-media-server`

Shallow embedding of `transcoding_service.py` (class `TranscodingService`).
The SQLite tables `transcoding_jobs` and `transcoding_cache`, the on-disk
file system, and the in-process queue/active bookkeeping are modelled as an
explicit state record; each Python method becomes a Lean function on that
state.  External effects (the ffmpeg child process, wall-clock timestamps,
`os.remove` failures) are passed in as explicit parameters, so that the
embedded functions are pure and executable.
-/

namespace WatchMedia

/-- Status values stored in the `status` column of `transcoding_jobs`
(`'pending'`, `'processing'`, `'completed'`, `'failed'`). -/
inductive JobStatus where
  | pending
  | processing
  | completed
  | failed
deriving DecidableEq

/-- A row of the `transcoding_jobs` table (id kept separately as the key).
`progress` is stored as a natural number 0..100.  The timestamp columns
hold TEXT: SQLite's `CURRENT_TIMESTAMP` writes `'YYYY-MM-DD HH:MM:SS'`
(UTC) strings, so timestamps are embedded as the stored strings. -/
structure Job where
  media_id : Nat
  input_path : String
  quality : String
  status : JobStatus
  progress : Nat
  error_message : Option String
  started_at : Option String
  completed_at : Option String
  created_at : String
  output_path : Option String
deriving DecidableEq

/-- A row of the `transcoding_cache` table.  The schema declares
`file_path TEXT UNIQUE NOT NULL`; `created_at` and `last_accessed` are
TEXT columns defaulted/updated with `CURRENT_TIMESTAMP`
(`'YYYY-MM-DD HH:MM:SS'`, UTC), embedded as the stored strings because
`cleanup_old_transcodes` compares them as SQLite TEXT, i.e.
lexicographically. -/
structure CacheRow where
  media_id : Nat
  quality : String
  file_path : String
  file_size : Nat
  duration : Int
  created_at : String
  last_accessed : String
deriving DecidableEq

/-- The database state together with the file system (the set of paths that
exist on disk) and the in-memory `transcode_queue` list of job ids.
`nextId` models the SQLite AUTOINCREMENT counter for `transcoding_jobs`. -/
structure TState where
  jobs : List (Nat × Job)
  nextId : Nat
  cache : List CacheRow
  fs : List String
  queue : List Nat
deriving DecidableEq

/-- The video-stream part of the dictionary returned by `get_media_info`
(only `height` is consulted by `get_optimal_quality`). -/
structure VideoInfo where
  width : Nat
  height : Nat
deriving DecidableEq

/-- The dictionary returned by `get_media_info`: `media_info.get('video')`
is `none` when the probe found no video stream. -/
structure MediaInfo where
  duration : Int
  video : Option VideoInfo
deriving DecidableEq

/-- The local list `quality_order` of `get_optimal_quality`. -/
def qualityOrder : List String := ["240p", "360p", "480p", "720p", "1080p", "4k"]

/-- Embeds `TranscodingService.get_optimal_quality`: if the probe data has no video
stream, return the requested quality unchanged; otherwise derive the source
capability tier from the source height by the if/elif ladder of the source,
and return the tier at the smaller of the two indices in `quality_order`.
(Python's `list.index` raises `ValueError` on an unknown tier; all theorems
below therefore assume the requested tier is one of the six known ones, for
which `List.indexOf` agrees with `list.index`.) -/
def get_optimal_quality (media_info : MediaInfo) (requested_quality : String) : String :=
  match media_info.video with
  | none => requested_quality
  | some v =>
    let source_height := v.height
    let source_quality :=
      if source_height ≤ 240 then "240p"
      else if source_height ≤ 360 then "360p"
      else if source_height ≤ 480 then "480p"
      else if source_height ≤ 720 then "720p"
      else if source_height ≤ 1080 then "1080p"
      else "4k"
    let source_index := qualityOrder.indexOf source_quality
    let requested_index := qualityOrder.indexOf requested_quality
    qualityOrder.getD (min source_index requested_index) requested_quality

/-- Modelled from the spec: the per-tier height bound used by the words
"`sourceCapabilityTier` is the smallest tier whose height bound is ≥ the
source height (e.g., height ≤ 720 gives 720p)"; `4k` is the top tier with
no finite bound. -/
def tierBound (q : String) : Nat :=
  match q with
  | "240p" => 240
  | "360p" => 360
  | "480p" => 480
  | "720p" => 720
  | "1080p" => 1080
  | _ => 1000000000

/-- Modelled from the spec: the smallest tier (in the fixed order) whose
height bound is ≥ the source height, defaulting to `4k`. -/
def spec_capability (h : Nat) : String :=
  match qualityOrder.find? (fun q => decide (h ≤ tierBound q)) with
  | some q => q
  | none => "4k"

/-- Modelled from the spec: `min` of two tiers under the fixed ordering
240p < 360p < 480p < 720p < 1080p < 4k. -/
def spec_minTier (a b : String) : String :=
  if qualityOrder.indexOf a ≤ qualityOrder.indexOf b then a else b

/-- Modelled from the spec: `resolvedQuality = min(requestedQuality,
sourceCapabilityTier)`, falling back to the requested tier when probe data
has no video properties. -/
def spec_resolveQuality (media_info : MediaInfo) (requested_quality : String) : String :=
  match media_info.video with
  | none => requested_quality
  | some v => spec_minTier requested_quality (spec_capability v.height)

/-- Embeds `SELECT ... WHERE id = ?` on `transcoding_jobs`: the row with the given
id (ids are unique in SQLite; the embedding keeps them unique and takes the
first match). -/
def findJob : List (Nat × Job) → Nat → Option Job
  | [], _ => none
  | p :: rest, id => if p.1 = id then some p.2 else findJob rest id

/-- Embeds `UPDATE transcoding_jobs SET ... WHERE id = ?`: apply `f` to the row
with the given id. -/
def updateJob : List (Nat × Job) → Nat → (Job → Job) → List (Nat × Job)
  | [], _, _ => []
  | p :: rest, id, f => (if p.1 = id then (p.1, f p.2) else p) :: updateJob rest id f

/-- Embeds `os.remove(fp)`: the path no longer exists afterwards. -/
def removeFile (fs : List String) (fp : String) : List String :=
  fs.filter (fun p => decide (p ≠ fp))

/-- The first row of `SELECT ... FROM transcoding_cache WHERE media_id = ?
AND quality = ? AND file_path IS NOT NULL` (`file_path` is declared
`NOT NULL`, so the last conjunct never filters anything). -/
def cacheRowFor (cache : List CacheRow) (media_id : Nat) (quality : String) :
    Option CacheRow :=
  cache.find? (fun r => decide (r.media_id = media_id ∧ r.quality = quality))

/-- Embeds `TranscodingService.get_cached_transcode`: look the row up; when a row
exists and its file is on disk, refresh `last_accessed` of every row for
that (media_id, quality) pair and return the cached path; in every other
case return `None` and leave the state unchanged (in particular a stale row
whose file is gone is NOT deleted). -/
def get_cached_transcode (s : TState) (now : String) (media_id : Nat) (quality : String) :
    Option String × TState :=
  match cacheRowFor s.cache media_id quality with
  | some r =>
    if r.file_path ∈ s.fs then
      (some r.file_path,
       { s with cache := s.cache.map (fun c =>
           if c.media_id = media_id ∧ c.quality = quality then
             { c with last_accessed := now }
           else c) })
    else (none, s)
  | none => (none, s)

/-- Embeds `TranscodingService.queue_transcode`: unconditionally INSERT a fresh
`pending` row into `transcoding_jobs` (AUTOINCREMENT id), append the id to
`transcode_queue`, and return the id.  There is no lookup of existing jobs
for the same (media_id, quality). -/
def queue_transcode (s : TState) (now : String) (media_id : Nat)
    (input_path quality : String) : Nat × TState :=
  let job : Job :=
    { media_id := media_id, input_path := input_path, quality := quality,
      status := .pending, progress := 0, error_message := none,
      started_at := none, completed_at := none, created_at := now,
      output_path := none }
  let job_id := s.nextId
  (job_id,
   { s with jobs := s.jobs ++ [(job_id, job)], nextId := s.nextId + 1,
            queue := s.queue ++ [job_id] })

/-- Embeds `INSERT OR REPLACE INTO transcoding_cache`: `file_path` is the UNIQUE
column, so a conflicting row (same path) is replaced; there is no
uniqueness constraint on (media_id, quality). -/
def cacheInsertOrReplace (cache : List CacheRow) (row : CacheRow) : List CacheRow :=
  cache.filter (fun c => decide (c.file_path ≠ row.file_path)) ++ [row]

/-- The `UPDATE ... SET status = 'completed', output_path = ?, progress =
100, completed_at = CURRENT_TIMESTAMP` statement of
`process_transcode_job`. -/
def completeJob (s : TState) (now : String) (job_id : Nat) (path : String) : TState :=
  { s with jobs := updateJob s.jobs job_id (fun j =>
      { j with status := .completed, output_path := some path, progress := 100,
               completed_at := some now }) }

/-- The `UPDATE ... SET status = 'processing', started_at =
CURRENT_TIMESTAMP` statement of `process_transcode_job`. -/
def setProcessing (s : TState) (now : String) (job_id : Nat) : TState :=
  { s with jobs := updateJob s.jobs job_id (fun j =>
      { j with status := .processing, started_at := some now }) }

/-- Outcome of the external ffmpeg child process spawned by
`transcode_file`, the only nondeterminism of a job's execution:
* `ok path size dur` — exit code 0 and the output file exists on disk
  (`transcode_file` returns the path);
* `failed stderr tmpOut` — non-zero exit code, a crash, or a probe failure
  (`transcode_file` returns `None` after printing `stderr`); `tmpOut` is
  the incomplete output file ffmpeg may have left behind, which the code
  never deletes;
* `hang` — the encoder never exits, so `process.communicate()` never
  returns and `process_transcode_job` blocks forever. -/
inductive EncodeOutcome where
  | ok (path : String) (size : Nat) (dur : Int)
  | failed (stderr : String) (tmpOut : Option String)
  | hang
deriving DecidableEq

/-- The success branch of `process_transcode_job` (lines 318-340): the
encoder wrote `path`; mark the job completed and `INSERT OR REPLACE` the
cache row. -/
def finishOk (s : TState) (now : String) (job_id : Nat) (media_id : Nat)
    (quality : String) (path : String) (size : Nat) (dur : Int) : TState :=
  let s1 := { s with fs := path :: s.fs }
  let s2 := completeJob s1 now job_id path
  let row : CacheRow :=
    { media_id := media_id, quality := quality, file_path := path,
      file_size := size, duration := dur, created_at := now,
      last_accessed := now }
  { s2 with cache := cacheInsertOrReplace s2.cache row }

/-- The failure branch of `process_transcode_job` (lines 341-348): mark the
job failed with the constant message `'Transcoding failed'`; the stderr
text is only printed, never stored, and the incomplete output file (if
ffmpeg created one) stays on disk. -/
def finishFailed (s : TState) (job_id : Nat) (tmpOut : Option String) : TState :=
  let s1 := { s with fs := match tmpOut with
                           | some p => p :: s.fs
                           | none => s.fs }
  { s1 with jobs := updateJob s1.jobs job_id (fun j =>
      { j with status := .failed, error_message := some "Transcoding failed" }) }

/-- Embeds `TranscodingService.process_transcode_job` run to completion (or, for
`hang`, up to the point where the worker blocks in
`process.communicate()`): fetch the job `WHERE id = ? AND status =
'pending'` (return unchanged if absent); if the cache already holds a
living rendition, mark the job completed directly; otherwise set it to
processing and apply the encoder outcome.  For `hang` the returned state is
the lasting observable state of the blocked call: the job stays
`processing` and nothing ever times it out. -/
def process_transcode_job (s : TState) (now : String) (job_id : Nat)
    (outcome : EncodeOutcome) : TState :=
  match findJob s.jobs job_id with
  | none => s
  | some jb =>
    if jb.status ≠ .pending then s
    else
      match get_cached_transcode s now jb.media_id jb.quality with
      | (some cached_path, s1) => completeJob s1 now job_id cached_path
      | (none, s1) =>
        let s2 := setProcessing s1 now job_id
        match outcome with
        | .ok path size dur => finishOk s2 now job_id jb.media_id jb.quality path size dur
        | .failed _stderr tmpOut => finishFailed s2 job_id tmpOut
        | .hang => s2

/-- Decides `s₁ < s₂` on strings by the structural core comparator
`String.decLt` (bytewise lexicographic on the character lists), which the
kernel can evaluate; registered with high priority so that `decide` uses
it. -/
instance (priority := 2000) stringStructuralDecLt (s₁ s₂ : String) :
    Decidable (s₁ < s₂) :=
  @decidable_of_iff _ _
    ((List.lt_iff_lex_lt s₁.data s₂.data).trans String.lt_iff_toList_lt.symm)
    (List.hasDecidableLt s₁.data s₂.data)

/-- One iteration of the `for (file_path,) in old_files` loop of
`cleanup_old_transcodes`.  `removeFails fp = true` models `os.remove(fp)`
raising an exception, in which case the `DELETE` statement after it inside
the same `try` block is skipped and the loop continues with the next
entry. -/
def cleanupStep (removeFails : String → Bool) (s : TState) (fp : String) : TState :=
  if fp ∈ s.fs then
    if removeFails fp then s
    else { s with fs := removeFile s.fs fp,
                  cache := s.cache.filter (fun c => decide (c.file_path ≠ fp)) }
  else { s with cache := s.cache.filter (fun c => decide (c.file_path ≠ fp)) }

/-- Embeds `TranscodingService.cleanup_old_transcodes`: snapshot the paths of
all cache rows selected by `WHERE last_accessed < ?` with the cutoff bound
to `(datetime.now() - timedelta(hours)).isoformat()`, then for each attempt
to remove the file and delete its row.  Both operands of the `<` are TEXT,
so SQLite compares the strings lexicographically — exactly the `<` on
`String` used here.  Note the format mismatch in the source: the stored
stamps are SQLite's `'YYYY-MM-DD HH:MM:SS'` (UTC) while the cutoff is
Python's `'YYYY-MM-DDTHH:MM:SS.ffffff'` (local), and since `' '` sorts
before `'T'` every row stamped on the cutoff's calendar date — however
recent — compares as old. -/
def cleanup_old_transcodes (s : TState) (cutoff : String)
    (removeFails : String → Bool) : TState :=
  let old_files := (s.cache.filter (fun r => decide (r.last_accessed < cutoff))).map
    (·.file_path)
  old_files.foldl (cleanupStep removeFails) s

/-- Embeds `TranscodingService.get_available_qualities`: the qualities of all
cache rows for the media id, with no check that the files still exist on
disk. -/
def get_available_qualities (s : TState) (media_id : Nat) : List String :=
  (s.cache.filter (fun r => decide (r.media_id = media_id))).map (·.quality)

/-- The jobs counted by the spec sentence "at most one active
(Pending/Processing) TranscodeJob per (mediaId, resolvedQuality)". -/
def activeJobsFor (s : TState) (media_id : Nat) (quality : String) : List (Nat × Job) :=
  s.jobs.filter (fun p => decide
    (p.2.media_id = media_id ∧ p.2.quality = quality ∧
     (p.2.status = .pending ∨ p.2.status = .processing)))

/-- Number of `transcoding_jobs` rows whose status is `processing`. -/
def countProcessing (s : TState) : Nat :=
  s.jobs.countP (fun p => decide (p.2.status = .processing))

/-- The empty initial state: freshly created tables, empty temp directory,
empty queue. -/
def tInit : TState :=
  { jobs := [], nextId := 0, cache := [], fs := [], queue := [] }

/-! ## The running system

`transcoding_service.py` runs one daemon worker thread (started in
`start_transcode_worker`), per-job progress-monitor threads, and the
callers of the public methods.  The interleaving of these threads is
modelled as a labelled transition system: `Sys` extends the shared state
with the `active_transcodes` dictionary (its key set), the point of the
single worker thread, and the pending writes of the monitor threads; each
`Event` is one atomic slice of execution of one of the threads.  The
worker's completion is split into two slices (the terminal DB commit and
the `finally` block's removal from `active_transcodes`), and a monitor
iteration into two slices (the membership check plus reading
`start_time`, and the later progress `UPDATE` that may be delayed by
`sleep(2)` and the SQLite write lock), so the real interleaving in which a
monitor's write lands after the job's terminal commit is representable. -/

/-- Position of the single worker thread: `idle` (in the polling loop),
`busy j` (inside `process_transcode_job` for job `j`, blocked on the
encoder), or `finishing j` (the terminal DB commit for `j` is done but the
`finally` block has not yet removed `j` from `active_transcodes`). -/
inductive WorkerPhase where
  | idle
  | busy (j : Nat)
  | finishing (j : Nat)
deriving DecidableEq

/-- Whole-system state: shared `TState`, the key set of
`self.active_transcodes`, the worker position, and `monitors` — the job
ids for which a monitor thread has passed its `job_id in
active_transcodes` check (and read `start_time`) but has not yet executed
its progress `UPDATE`. -/
structure Sys where
  db : TState
  active : List Nat
  worker : WorkerPhase
  monitors : List Nat
deriving DecidableEq

/-- The atomic execution slices of the subsystem's threads:
* `submit` — a caller runs `queue_transcode`;
* `pick now` — the worker loop observes `len(active_transcodes) <
  max_concurrent_transcodes` and a non-empty queue, pops the head and runs
  `process_transcode_job` up to the point where the encoder is started
  (on a cache hit or a missing/non-pending job the call returns at once,
  within the same slice);
* `finishCommit j outcome now` — the encoder of job `j` exits and the
  worker commits the terminal update (for `outcome = hang` the encoder
  never exits, so nothing happens);
* `finishRelease j` — the worker's `finally` block removes `j` from
  `active_transcodes` and the loop is free again;
* `monitorArm j` — a monitor thread passes its membership check for `j`
  and is about to write (its `UPDATE` is now outstanding);
* `monitorWrite j v` — an outstanding monitor `UPDATE` executes,
  unconditionally writing the estimated progress (the code computes
  `min(90, ...)`) for job `j`, whatever the job's status is by then;
* `janitor cutoff removeFails` — someone runs `cleanup_old_transcodes`. -/
inductive Event where
  | submit (now : String) (media_id : Nat) (input_path quality : String)
  | pick (now : String)
  | finishCommit (job_id : Nat) (outcome : EncodeOutcome) (now : String)
  | finishRelease (job_id : Nat)
  | monitorArm (job_id : Nat)
  | monitorWrite (job_id : Nat) (v : Nat)
  | janitor (cutoff : String) (removeFails : String → Bool)

/-- The worker-side terminal commit of `process_transcode_job` once the
encoder of job `job_id` has exited (lines 318-348): the job row and, on
success, the cache are committed; the `finally` block runs later as a
separate slice.  A `hang` outcome never reaches this code. -/
def applyFinish (s : Sys) (job_id : Nat) (outcome : EncodeOutcome) (now : String) : Sys :=
  match findJob s.db.jobs job_id with
  | none => { s with worker := .finishing job_id }
  | some jb =>
    match outcome with
    | .ok path size dur =>
      { s with db := finishOk s.db now job_id jb.media_id jb.quality path size dur,
               worker := .finishing job_id }
    | .failed _stderr tmpOut =>
      { s with db := finishFailed s.db job_id tmpOut,
               worker := .finishing job_id }
    | .hang => s

/-- One atomic step of the system.  A slice whose guard does not hold (the
worker is busy, the concurrency check fails, the queue is empty, the job is
not in `active_transcodes`, no `UPDATE` is outstanding, ...) leaves the
state unchanged. -/
def stepE (K : Nat) (s : Sys) (e : Event) : Sys :=
  match e with
  | .submit now media_id input_path quality =>
    { s with db := (queue_transcode s.db now media_id input_path quality).2 }
  | .pick now =>
    match s.worker with
    | .busy _ => s
    | .finishing _ => s
    | .idle =>
      if s.active.length < K then
        match s.db.queue with
        | [] => s
        | j :: rest =>
          match findJob s.db.jobs j with
          | none => { s with db := { s.db with queue := rest } }
          | some jb =>
            if jb.status ≠ .pending then { s with db := { s.db with queue := rest } }
            else
              match get_cached_transcode { s.db with queue := rest } now
                  jb.media_id jb.quality with
              | (some cached_path, db2) => { s with db := completeJob db2 now j cached_path }
              | (none, db2) =>
                { db := setProcessing db2 now j,
                  active := s.active ++ [j], worker := .busy j,
                  monitors := s.monitors }
      else s
  | .finishCommit job_id outcome now =>
    if s.worker = .busy job_id then applyFinish s job_id outcome now else s
  | .finishRelease job_id =>
    if s.worker = .finishing job_id then
      { s with active := s.active.filter (fun i => decide (i ≠ job_id)),
               worker := .idle }
    else s
  | .monitorArm job_id =>
    if job_id ∈ s.active then { s with monitors := s.monitors ++ [job_id] } else s
  | .monitorWrite job_id v =>
    if job_id ∈ s.monitors then
      { s with db := { s.db with jobs := updateJob s.db.jobs job_id (fun jb =>
          { jb with progress := min 90 v }) },
               monitors := s.monitors.erase job_id }
    else s
  | .janitor cutoff removeFails =>
    { s with db := cleanup_old_transcodes s.db cutoff removeFails }

/-- The system right after `__init__`: fresh tables, empty
`active_transcodes`, idle worker, no outstanding monitor writes. -/
def sysInit : Sys := { db := tInit, active := [], worker := .idle, monitors := [] }

/-- States reachable by the running service with concurrency configuration
`K = MAX_CONCURRENT_TRANSCODES`. -/
inductive Reachable (K : Nat) : Sys → Prop where
  | init : Reachable K sysInit
  | step {s : Sys} (e : Event) : Reachable K s → Reachable K (stepE K s e)

/-- The statuses of job `j` in the system. -/
def jobStatus (s : Sys) (j : Nat) : Option JobStatus :=
  (findJob s.db.jobs j).map (·.status)

/-- Holds when `e` is the event in which the encoder of job `j` exits and
the worker commits `process_transcode_job`'s terminal update for it. -/
def isFinishOf (e : Event) (j : Nat) : Prop :=
  ∃ outcome now, e = Event.finishCommit j outcome now

/-- Holds when `e` is an outstanding monitor thread's progress `UPDATE`
executing. -/
def isMonitorWrite (e : Event) : Prop :=
  ∃ j v, e = Event.monitorWrite j v

/-- Modelled from the spec: the transition list "Pending → Processing →
{Completed | Failed}" claimed for the job state machine. -/
def specAllowedTransition (a b : JobStatus) : Bool :=
  match a, b with
  | .pending, .processing => true
  | .processing, .completed => true
  | .processing, .failed => true
  | _, _ => false

/-- The transition list the code actually follows: the spec's three
transitions plus the direct Pending → Completed shortcut taken by
`process_transcode_job` when the rendition cache already holds a living
entry. -/
def codeTransition (a b : JobStatus) : Bool :=
  specAllowedTransition a b || (a = .pending && b = .completed)

/-- The structural well-formedness the SQLite schema guarantees for the
jobs table: ids are unique and below the AUTOINCREMENT counter. -/
def WF (t : TState) : Prop :=
  (t.jobs.map Prod.fst).Nodup ∧
  (∀ i ∈ t.jobs.map Prod.fst, i < t.nextId)

/-- The inductive invariant of the running system, phase by phase of the
single worker thread: while the worker is idle nothing is active and no
row is `processing`; while it is blocked on an encoder, exactly its job is
active and `processing`; in the window between the terminal commit and the
`finally` block the job is still in `active_transcodes` but no row is
`processing` any more. -/
def Inv (K : Nat) (s : Sys) : Prop :=
  (s.worker = .idle → s.active = [] ∧ countProcessing s.db = 0) ∧
  (∀ j, s.worker = .busy j →
    s.active = [j] ∧ 1 ≤ K ∧ jobStatus s j = some .processing ∧
    countProcessing s.db = 1) ∧
  (∀ j, s.worker = .finishing j →
    s.active = [j] ∧ 1 ≤ K ∧ countProcessing s.db = 0) ∧
  WF s.db

/-! ## Basic lemmas about the table operations -/

lemma updateJob_of_not_mem {jobs : List (Nat × Job)} {id : Nat} (f : Job → Job)
    (h : id ∉ jobs.map Prod.fst) : updateJob jobs id f = jobs := by
  induction jobs with
  | nil => rfl
  | cons p rest ih =>
    simp only [List.map_cons, List.mem_cons, not_or] at h
    have hp : ¬ p.1 = id := fun hh => h.1 hh.symm
    simp [updateJob, hp, ih h.2]

lemma findJob_updateJob_self (jobs : List (Nat × Job)) (id : Nat) (f : Job → Job) :
    findJob (updateJob jobs id f) id = (findJob jobs id).map f := by
  induction jobs with
  | nil => rfl
  | cons p rest ih =>
    by_cases hp : p.1 = id <;> simp [updateJob, findJob, hp, ih]

lemma findJob_updateJob_ne (jobs : List (Nat × Job)) {i id : Nat} (f : Job → Job)
    (h : i ≠ id) : findJob (updateJob jobs id f) i = findJob jobs i := by
  induction jobs with
  | nil => rfl
  | cons p rest ih =>
    by_cases hp : p.1 = id
    · simp [updateJob, findJob, hp, ih, Ne.symm h]
    · by_cases hq : p.1 = i <;> simp [updateJob, findJob, hp, hq, ih, h]

lemma findJob_mem {jobs : List (Nat × Job)} {id : Nat} {jb : Job}
    (h : findJob jobs id = some jb) : (id, jb) ∈ jobs := by
  induction jobs with
  | nil => simp [findJob] at h
  | cons p rest ih =>
    by_cases hp : p.1 = id
    · simp only [findJob, if_pos hp, Option.some.injEq] at h
      have hpe : p = (id, jb) := by
        cases p
        simp_all
      rw [hpe] at *
      exact List.mem_cons_self _ _
    · simp only [findJob, if_neg hp] at h
      right
      exact ih h

lemma findJob_eq_none {jobs : List (Nat × Job)} {id : Nat}
    (h : id ∉ jobs.map Prod.fst) : findJob jobs id = none := by
  induction jobs with
  | nil => rfl
  | cons p rest ih =>
    simp only [List.map_cons, List.mem_cons, not_or] at h
    have hp : ¬ p.1 = id := fun hh => h.1 hh.symm
    simp [findJob, hp, ih h.2]

lemma findJob_append_left {jobs : List (Nat × Job)} {id : Nat} {jb : Job}
    (l : List (Nat × Job)) (h : findJob jobs id = some jb) :
    findJob (jobs ++ l) id = some jb := by
  induction jobs with
  | nil => simp [findJob] at h
  | cons p rest ih =>
    by_cases hp : p.1 = id <;>
      simp only [findJob, List.cons_append, if_pos, if_neg, hp] at h ⊢
    · exact h
    · exact ih h

lemma findJob_append_none {jobs : List (Nat × Job)} {id : Nat}
    (l : List (Nat × Job)) (h : findJob jobs id = none) :
    findJob (jobs ++ l) id = findJob l id := by
  induction jobs with
  | nil => rfl
  | cons p rest ih =>
    by_cases hp : p.1 = id <;>
      simp only [findJob, List.cons_append, if_pos, if_neg, hp] at h ⊢
    · simp at h
    · exact ih h

lemma countP_updateJob (jobs : List (Nat × Job)) (id : Nat) (f : Job → Job)
    (q : Nat × Job → Bool) (hnd : (jobs.map Prod.fst).Nodup) (jb : Job)
    (hm : (id, jb) ∈ jobs) :
    (updateJob jobs id f).countP q + (if q (id, jb) then 1 else 0)
      = jobs.countP q + (if q (id, f jb) then 1 else 0) := by
  induction jobs with
  | nil => simp at hm
  | cons p rest ih =>
    simp only [List.map_cons, List.nodup_cons] at hnd
    rcases List.mem_cons.mp hm with heq | hmem
    · subst heq
      simp only [updateJob, if_pos rfl]
      rw [updateJob_of_not_mem _ hnd.1]
      simp only [List.countP_cons, if_true, reduceIte]
      omega
    · have hne : p.1 ≠ id := by
        intro hh
        exact hnd.1 (hh ▸ (List.mem_map.mpr ⟨(id, jb), hmem, rfl⟩))
      simp only [updateJob, if_neg hne, List.countP_cons]
      have := ih hnd.2 hmem
      omega

lemma updateJob_map_fst (jobs : List (Nat × Job)) (id : Nat) (f : Job → Job) :
    (updateJob jobs id f).map Prod.fst = jobs.map Prod.fst := by
  induction jobs with
  | nil => rfl
  | cons p rest ih =>
    by_cases hp : p.1 = id <;> simp [updateJob, hp, ih]

lemma WF_updateJob {t : TState} (hwf : WF t) (id : Nat) (f : Job → Job) :
    WF { t with jobs := updateJob t.jobs id f } := by
  obtain ⟨h1, h2⟩ := hwf
  exact ⟨by rw [updateJob_map_fst]; exact h1,
         by rw [updateJob_map_fst]; exact h2⟩

lemma cleanupStep_keeps (rf : String → Bool) (t : TState) (fp : String) :
    (cleanupStep rf t fp).jobs = t.jobs ∧ (cleanupStep rf t fp).nextId = t.nextId ∧
    (cleanupStep rf t fp).queue = t.queue := by
  unfold cleanupStep
  split_ifs <;> simp

lemma cleanup_keeps (t : TState) (cutoff : String) (rf : String → Bool) :
    (cleanup_old_transcodes t cutoff rf).jobs = t.jobs ∧
    (cleanup_old_transcodes t cutoff rf).nextId = t.nextId ∧
    (cleanup_old_transcodes t cutoff rf).queue = t.queue := by
  unfold cleanup_old_transcodes
  generalize ((t.cache.filter (fun r => decide (r.last_accessed < cutoff))).map
    (·.file_path)) = L
  induction L generalizing t with
  | nil => exact ⟨rfl, rfl, rfl⟩
  | cons fp rest ih =>
    simp only [List.foldl_cons]
    obtain ⟨hj, hn, hq⟩ := ih (cleanupStep rf t fp)
    obtain ⟨kj, kn, kq⟩ := cleanupStep_keeps rf t fp
    exact ⟨hj.trans kj, hn.trans kn, hq.trans kq⟩

lemma get_cached_keeps (s : TState) (now : String) (media_id : Nat) (quality : String) :
    (get_cached_transcode s now media_id quality).2.jobs = s.jobs ∧
    (get_cached_transcode s now media_id quality).2.nextId = s.nextId ∧
    (get_cached_transcode s now media_id quality).2.queue = s.queue ∧
    (get_cached_transcode s now media_id quality).2.fs = s.fs := by
  unfold get_cached_transcode
  rcases cacheRowFor s.cache media_id quality with _ | r <;> simp
  split_ifs <;> simp

/-! ## The inductive invariant -/

lemma countP_updateJob_of_pres (jobs : List (Nat × Job)) (id : Nat) (f : Job → Job)
    (q : Nat × Job → Bool) (hq : ∀ i jb, q (i, f jb) = q (i, jb)) :
    (updateJob jobs id f).countP q = jobs.countP q := by
  induction jobs with
  | nil => rfl
  | cons p rest ih =>
    by_cases hp : p.1 = id
    · simp only [updateJob, if_pos hp, List.countP_cons, ih]
      rw [hq p.1 p.2]

    · simp only [updateJob, if_neg hp, List.countP_cons, ih]

lemma inv_init (K : Nat) : Inv K sysInit := by
  refine ⟨fun _ => ⟨rfl, rfl⟩, fun j hj => by simp [sysInit] at hj,
          fun j hj => by simp [sysInit] at hj, ?_⟩
  exact ⟨List.nodup_nil, fun i hi => by simp [sysInit, tInit] at hi⟩

lemma inv_submit (K : Nat) {s : Sys} (h : Inv K s) (now : String) (m : Nat)
    (ip q : String) : Inv K (stepE K s (.submit now m ip q)) := by
  obtain ⟨hidle, hbusy, hfin, hnd, hlt⟩ := h
  have hcnt : countProcessing (stepE K s (.submit now m ip q)).db
      = countProcessing s.db := by
    simp [stepE, queue_transcode, countProcessing, List.countP_append]
  refine ⟨?_, ?_, ?_, ?_, ?_⟩
  · intro hw
    obtain ⟨ha, hc⟩ := hidle hw
    exact ⟨ha, by rw [hcnt]; exact hc⟩
  · intro j hj
    obtain ⟨ha, hK, hst, hc⟩ := hbusy j hj
    refine ⟨ha, hK, ?_, by rw [hcnt]; exact hc⟩
    simp only [jobStatus, stepE, queue_transcode] at hst ⊢
    rcases hf : findJob s.db.jobs j with _ | jb
    · rw [hf] at hst
      simp at hst
    · rw [hf] at hst
      rw [findJob_append_left _ hf]
      exact hst
  · intro j hj
    obtain ⟨ha, hK, hc⟩ := hfin j hj
    exact ⟨ha, hK, by rw [hcnt]; exact hc⟩
  · simp only [stepE, queue_transcode, List.map_append, List.map_cons, List.map_nil]
    refine List.Nodup.append hnd (List.nodup_singleton _) ?_
    intro a ha hb
    simp only [List.mem_singleton] at hb
    subst hb
    exact absurd (hlt _ ha) (lt_irrefl _)
  · simp only [stepE, queue_transcode, List.map_append, List.map_cons, List.map_nil,
      List.mem_append, List.mem_singleton]
    intro i hi
    rcases hi with hi | hi
    · exact Nat.lt_succ_of_lt (hlt i hi)
    · subst hi
      exact Nat.lt_succ_self _

lemma inv_pick (K : Nat) {s : Sys} (h : Inv K s) (now : String) :
    Inv K (stepE K s (.pick now)) := by
  obtain ⟨hidle, hbusy, hfin, hnd, hlt⟩ := h
  cases hw : s.worker with
  | busy w =>
    simp only [stepE, hw]
    exact ⟨hidle, hbusy, hfin, hnd, hlt⟩
  | finishing w =>
    simp only [stepE, hw]
    exact ⟨hidle, hbusy, hfin, hnd, hlt⟩
  | idle =>
  simp only [stepE, hw]
  obtain ⟨hact, hcnt0⟩ := hidle hw
  by_cases hK : s.active.length < K
  case neg =>
    simp only [if_neg hK]
    exact ⟨hidle, hbusy, hfin, hnd, hlt⟩
  simp only [if_pos hK]
  cases hq : s.db.queue with
  | nil => exact ⟨hidle, hbusy, hfin, hnd, hlt⟩
  | cons j rest =>
  simp only []
  cases hf : findJob s.db.jobs j with
  | none =>
    exact ⟨fun _ => ⟨hact, hcnt0⟩, fun i hi => absurd hi (by simp [hw]),
           fun i hi => absurd hi (by simp [hw]), hnd, hlt⟩
  | some jb =>
  simp only []
  by_cases hst : jb.status = .pending
  case neg =>
    simp only [ne_eq, hst, not_false_eq_true, if_true]
    exact ⟨fun _ => ⟨hact, hcnt0⟩, fun i hi => absurd hi (by simp [hw]),
           fun i hi => absurd hi (by simp [hw]), hnd, hlt⟩
  simp only [ne_eq, hst, not_true_eq_false, if_false]
  rcases hgc : get_cached_transcode { s.db with queue := rest } now jb.media_id jb.quality
    with ⟨copt, db2⟩
  have hkeep := get_cached_keeps { s.db with queue := rest } now jb.media_id jb.quality
  rw [hgc] at hkeep
  obtain ⟨hkj, hkn, hkq, hkf⟩ := hkeep
  have hdbj : db2.jobs = s.db.jobs := hkj
  have hdbn : db2.nextId = s.db.nextId := hkn
  have hmem : (j, jb) ∈ s.db.jobs := findJob_mem hf
  cases copt with
  | some path =>
    -- cache hit: the job goes pending → completed, worker stays idle
    have hcp := countP_updateJob db2.jobs j (fun jo => { jo with status := JobStatus.completed, output_path := some path, progress := 100, completed_at := some now }) (fun p => decide (p.2.status = .processing)) (by rw [hdbj]; exact hnd) jb (by rw [hdbj]; exact hmem)
    simp only [hst, decide_eq_true_eq] at hcp
    simp at hcp
    have hcnt : countProcessing (completeJob db2 now j path) = countProcessing s.db := by
      simp only [completeJob, countProcessing]
      rw [hdbj] at hcp
      rw [hdbj, hcp]
    refine ⟨fun _ => ⟨hact, by rw [hcnt]; exact hcnt0⟩,
            fun i hi => absurd hi (by simp [hw]),
            fun i hi => absurd hi (by simp [hw]), ?_, ?_⟩
    · simp only [completeJob, updateJob_map_fst, hdbj]
      exact hnd
    · simp only [completeJob, updateJob_map_fst, hdbj, hdbn]
      exact hlt
  | none =>
    -- cache miss: the job goes pending → processing and the worker blocks on it
    have hcp := countP_updateJob db2.jobs j (fun jo => { jo with status := JobStatus.processing, started_at := some now }) (fun p => decide (p.2.status = .processing)) (by rw [hdbj]; exact hnd) jb (by rw [hdbj]; exact hmem)
    simp only [hst, decide_eq_true_eq] at hcp
    simp at hcp
    refine ⟨fun hc => by simp at hc, ?_, fun i hi => by simp at hi, ?_, ?_⟩
    · intro i hi
      simp only [WorkerPhase.busy.injEq] at hi
      subst hi
      refine ⟨by rw [hact]; rfl, by omega, ?_, ?_⟩
      · simp only [jobStatus, setProcessing]
        rw [findJob_updateJob_self, hdbj, hf]
        rfl
      · simp only [setProcessing, countProcessing]
        simp only [countProcessing] at hcnt0
        rw [hdbj] at hcp
        rw [hdbj, hcp, hcnt0]
    · simp only [setProcessing, updateJob_map_fst, hdbj]
      exact hnd
    · simp only [setProcessing, updateJob_map_fst, hdbj, hdbn]
      exact hlt

lemma inv_finishCommit (K : Nat) {s : Sys} (h : Inv K s) (j : Nat)
    (outcome : EncodeOutcome) (now : String) :
    Inv K (stepE K s (.finishCommit j outcome now)) := by
  obtain ⟨hidle, hbusy, hfin, hnd, hlt⟩ := h
  simp only [stepE]
  by_cases hw : s.worker = .busy j
  case neg =>
    simp only [if_neg hw]
    exact ⟨hidle, hbusy, hfin, hnd, hlt⟩
  simp only [if_pos hw]
  obtain ⟨hact, hK, hstat, hcnt1⟩ := hbusy j hw
  rcases hfj : findJob s.db.jobs j with _ | jb
  · rw [jobStatus, hfj] at hstat
    simp at hstat
  have hjbst : jb.status = .processing := by
    rw [jobStatus, hfj] at hstat
    simpa using hstat
  have hmem := findJob_mem hfj
  unfold applyFinish
  rw [hfj]
  cases outcome with
  | hang => exact ⟨hidle, hbusy, hfin, hnd, hlt⟩
  | ok path size dur =>
    have hcp := countP_updateJob s.db.jobs j (fun jo => { jo with status := JobStatus.completed, output_path := some path, progress := 100, completed_at := some now }) (fun p => decide (p.2.status = .processing)) hnd jb hmem
    simp only [hjbst, decide_eq_true_eq] at hcp
    simp at hcp
    refine ⟨fun hc => by simp at hc, fun i hi => by simp at hi, ?_, ?_, ?_⟩
    · intro i hi
      simp only [WorkerPhase.finishing.injEq] at hi
      subst hi
      refine ⟨hact, hK, ?_⟩
      simp only [finishOk, completeJob, cacheInsertOrReplace, countProcessing]
      simp only [countProcessing] at hcnt1
      omega
    · simp only [finishOk, completeJob, updateJob_map_fst]
      exact hnd
    · simp only [finishOk, completeJob, updateJob_map_fst]
      exact hlt
  | failed stderr tmpOut =>
    have hcp := countP_updateJob s.db.jobs j (fun jo => { jo with status := JobStatus.failed, error_message := some "Transcoding failed" }) (fun p => decide (p.2.status = .processing)) hnd jb hmem
    simp only [hjbst, decide_eq_true_eq] at hcp
    simp at hcp
    refine ⟨fun hc => by simp at hc, fun i hi => by simp at hi, ?_, ?_, ?_⟩
    · intro i hi
      simp only [WorkerPhase.finishing.injEq] at hi
      subst hi
      refine ⟨hact, hK, ?_⟩
      simp only [finishFailed, countProcessing]
      simp only [countProcessing] at hcnt1
      omega
    · simp only [finishFailed, updateJob_map_fst]
      exact hnd
    · simp only [finishFailed, updateJob_map_fst]
      exact hlt

lemma inv_finishRelease (K : Nat) {s : Sys} (h : Inv K s) (j : Nat) :
    Inv K (stepE K s (.finishRelease j)) := by
  obtain ⟨hidle, hbusy, hfin, hnd, hlt⟩ := h
  simp only [stepE]
  by_cases hw : s.worker = .finishing j
  case neg =>
    simp only [if_neg hw]
    exact ⟨hidle, hbusy, hfin, hnd, hlt⟩
  simp only [if_pos hw]
  obtain ⟨hact, hK, hcnt0⟩ := hfin j hw
  refine ⟨fun _ => ⟨?_, hcnt0⟩, fun i hi => by simp at hi,
          fun i hi => by simp at hi, hnd, hlt⟩
  rw [hact]
  simp

lemma inv_monitorArm (K : Nat) {s : Sys} (h : Inv K s) (j : Nat) :
    Inv K (stepE K s (.monitorArm j)) := by
  obtain ⟨hidle, hbusy, hfin, hnd, hlt⟩ := h
  simp only [stepE]
  by_cases hj : j ∈ s.active <;> simp only [if_pos, if_neg, hj] <;>
    exact ⟨hidle, hbusy, hfin, hnd, hlt⟩

lemma inv_monitorWrite (K : Nat) {s : Sys} (h : Inv K s) (j : Nat) (v : Nat) :
    Inv K (stepE K s (.monitorWrite j v)) := by
  obtain ⟨hidle, hbusy, hfin, hnd, hlt⟩ := h
  simp only [stepE]
  by_cases hj : j ∈ s.monitors
  case neg =>
    simp only [if_neg hj]
    exact ⟨hidle, hbusy, hfin, hnd, hlt⟩
  simp only [if_pos hj]
  have hcnt : (updateJob s.db.jobs j (fun jb => { jb with progress := min 90 v })).countP
      (fun p => decide (p.2.status = .processing))
      = s.db.jobs.countP (fun p => decide (p.2.status = .processing)) :=
    countP_updateJob_of_pres _ _ _ _ (fun _ _ => rfl)
  refine ⟨?_, ?_, ?_, ?_, ?_⟩
  · intro hw
    obtain ⟨ha, hc⟩ := hidle hw
    refine ⟨ha, ?_⟩
    simp only [countProcessing] at hc ⊢
    rw [hcnt]
    exact hc
  · intro i hi
    obtain ⟨ha, hK, hst, hc⟩ := hbusy i hi
    refine ⟨ha, hK, ?_, ?_⟩
    · simp only [jobStatus] at hst ⊢
      rcases hfi : findJob s.db.jobs i with _ | jb
      · rw [hfi] at hst
        simp at hst
      · by_cases hij : i = j
        · subst hij
          rw [findJob_updateJob_self, hfi]
          rw [hfi] at hst
          simpa using hst
        · rw [findJob_updateJob_ne _ _ hij, hfi]
          rw [hfi] at hst
          exact hst
    · simp only [countProcessing] at hc ⊢
      rw [hcnt]
      exact hc
  · intro i hi
    obtain ⟨ha, hK, hc⟩ := hfin i hi
    refine ⟨ha, hK, ?_⟩
    simp only [countProcessing] at hc ⊢
    rw [hcnt]
    exact hc
  · simp only [updateJob_map_fst]
    exact hnd
  · simp only [updateJob_map_fst]
    exact hlt

lemma inv_janitor (K : Nat) {s : Sys} (h : Inv K s) (cutoff : String)
    (rf : String → Bool) : Inv K (stepE K s (.janitor cutoff rf)) := by
  obtain ⟨hidle, hbusy, hfin, hnd, hlt⟩ := h
  obtain ⟨hj, hn, hq⟩ := cleanup_keeps s.db cutoff rf
  simp only [stepE]
  have hcnt : countProcessing (cleanup_old_transcodes s.db cutoff rf)
      = countProcessing s.db := by
    simp only [countProcessing]
    rw [hj]
  refine ⟨?_, ?_, ?_, ?_, ?_⟩
  · intro hw
    obtain ⟨ha, hc⟩ := hidle hw
    exact ⟨ha, by rw [hcnt]; exact hc⟩
  · intro i hi
    obtain ⟨ha, hK, hst, hc⟩ := hbusy i hi
    refine ⟨ha, hK, ?_, by rw [hcnt]; exact hc⟩
    simp only [jobStatus] at hst ⊢
    rw [hj]
    exact hst
  · intro i hi
    obtain ⟨ha, hK, hc⟩ := hfin i hi
    exact ⟨ha, hK, by rw [hcnt]; exact hc⟩
  · rw [hj]
    exact hnd
  · rw [hj, hn]
    exact hlt

lemma reachable_inv {K : Nat} {s : Sys} (h : Reachable K s) : Inv K s := by
  induction h with
  | init => exact inv_init K
  | step e _ ih =>
    cases e with
    | submit now m ip q => exact inv_submit K ih now m ip q
    | pick now => exact inv_pick K ih now
    | finishCommit j outcome now => exact inv_finishCommit K ih j outcome now
    | finishRelease j => exact inv_finishRelease K ih j
    | monitorArm j => exact inv_monitorArm K ih j
    | monitorWrite j v => exact inv_monitorWrite K ih j v
    | janitor cutoff rf => exact inv_janitor K ih cutoff rf

/-! ## Claim C1 — job submission does not coalesce duplicates -/

/-- C1 counterexample: starting from the fresh service state, a first
`queue_transcode(7, "/media/7.mkv", "720p")` returns job id 0 and leaves
that job pending (active); a second, identical call — the spec's
"concurrent identical request" — returns the different id 1 instead of the
existing job's id, and afterwards two active jobs exist for the key
(7, "720p").  This refutes the claimed coalescing invariant. -/
theorem C1_counterexample :
    (queue_transcode tInit "t0" 7 "/media/7.mkv" "720p").1 = 0 ∧
    ((queue_transcode tInit "t0" 7 "/media/7.mkv" "720p").2.jobs.map
      (fun p => (p.1, p.2.status))) = [(0, JobStatus.pending)] ∧
    (queue_transcode (queue_transcode tInit "t0" 7 "/media/7.mkv" "720p").2
      "t0" 7 "/media/7.mkv" "720p").1 = 1 ∧
    (activeJobsFor (queue_transcode (queue_transcode tInit "t0" 7 "/media/7.mkv" "720p").2
      "t0" 7 "/media/7.mkv" "720p").2 7 "720p").length = 2 := by
  decide

/-- C1 (amended): `queue_transcode` performs no coalescing: every call —
including one made while an active job for the same (media_id, quality)
already exists — INSERTs a fresh `pending` job under the next AUTOINCREMENT
id, appends it to the queue and returns the fresh id, which differs from
every existing job id; all existing jobs are left untouched, so duplicate
submissions observe distinct job ids and multiple active jobs per key can
coexist. -/
theorem C1_amended (s : TState) (hwf : WF s) (now : String) (m : Nat) (ip q : String) :
    (queue_transcode s now m ip q).1 = s.nextId ∧
    (queue_transcode s now m ip q).1 ∉ s.jobs.map Prod.fst ∧
    findJob (queue_transcode s now m ip q).2.jobs (queue_transcode s now m ip q).1
      = some { media_id := m, input_path := ip, quality := q,
               status := .pending, progress := 0, error_message := none,
               started_at := none, completed_at := none, created_at := now,
               output_path := none } ∧
    (queue_transcode s now m ip q).2.queue
      = s.queue ++ [(queue_transcode s now m ip q).1] ∧
    (∀ i, i ≠ (queue_transcode s now m ip q).1 →
      findJob (queue_transcode s now m ip q).2.jobs i = findJob s.jobs i) := by
  obtain ⟨hnd, hlt⟩ := hwf
  have hfresh : s.nextId ∉ s.jobs.map Prod.fst := by
    intro hmem
    exact absurd (hlt _ hmem) (lt_irrefl _)
  refine ⟨rfl, hfresh, ?_, rfl, ?_⟩
  · show findJob (s.jobs ++ [(s.nextId, _)]) s.nextId = _
    rw [findJob_append_none _ (findJob_eq_none hfresh)]
    simp [findJob]
  · intro i hi
    show findJob (s.jobs ++ [(s.nextId, _)]) i = findJob s.jobs i
    rcases hfi : findJob s.jobs i with _ | jb
    · rw [findJob_append_none _ hfi]
      simp only [findJob]
      rw [if_neg (fun hh => hi hh.symm)]
    · exact findJob_append_left _ hfi

/-- Closed witness for the amended C1 at a concrete state that already
holds an active (pending) job for the key (7, "720p"). -/
theorem C1_amended_witness :
    (queue_transcode (queue_transcode tInit "t0" 7 "/media/7.mkv" "720p").2
      "t0" 7 "/media/7.mkv" "720p").1
        = (queue_transcode tInit "t0" 7 "/media/7.mkv" "720p").2.nextId ∧
    (queue_transcode (queue_transcode tInit "t0" 7 "/media/7.mkv" "720p").2
      "t0" 7 "/media/7.mkv" "720p").1
        ∉ (queue_transcode tInit "t0" 7 "/media/7.mkv" "720p").2.jobs.map Prod.fst := by
  have h := C1_amended (queue_transcode tInit "t0" 7 "/media/7.mkv" "720p").2
    (by constructor
        · decide
        · decide)
    "t0" 7 "/media/7.mkv" "720p"
  exact ⟨h.1, h.2.1⟩

/-! ## Claim C2 — the cache lookup does not self-heal stale rows -/

/-- A cache row for (1, "720p") pointing at `/cache/1_720p.mp4`. -/
def c2Row : CacheRow :=
  { media_id := 1, quality := "720p", file_path := "/cache/1_720p.mp4",
    file_size := 100, duration := 0, created_at := "2024-06-14 10:00:00",
    last_accessed := "2024-06-14 10:00:00" }

/-- A state holding one cache row for (1, "720p") whose file is absent from
the disk. -/
def c2State : TState :=
  { jobs := [], nextId := 0, cache := [c2Row], fs := [], queue := [] }

/-- C2 counterexample: at `c2State` a cache row for (1, "720p") exists but
its file is missing from disk; `get_cached_transcode` returns `None`, yet
the stale row is NOT deleted — the cache table is unchanged and still
non-empty, refuting the claimed self-healing deletion. -/
theorem C2_counterexample :
    (cacheRowFor c2State.cache 1 "720p").isSome = true ∧
    (get_cached_transcode c2State "t5" 1 "720p").1 = none ∧
    (get_cached_transcode c2State "t5" 1 "720p").2 = c2State ∧
    c2State.cache ≠ [] := by
  decide

/-- C2 (amended): for every state, media id and tier: with no row the
lookup returns `None` and changes nothing; with a row whose file is
missing from disk it returns `None` and changes nothing — the stale row
remains in the cache (no self-heal deletion); with a row whose file exists
it returns the cached path and refreshes `last_accessed` of the rows for
that key, touching nothing else. -/
theorem C2_amended (s : TState) (now : String) (m : Nat) (q : String) :
    (cacheRowFor s.cache m q = none → get_cached_transcode s now m q = (none, s)) ∧
    (∀ r, cacheRowFor s.cache m q = some r → r.file_path ∉ s.fs →
      get_cached_transcode s now m q = (none, s) ∧
      r ∈ (get_cached_transcode s now m q).2.cache) ∧
    (∀ r, cacheRowFor s.cache m q = some r → r.file_path ∈ s.fs →
      (get_cached_transcode s now m q).1 = some r.file_path ∧
      (get_cached_transcode s now m q).2.cache
        = s.cache.map (fun c =>
            if c.media_id = m ∧ c.quality = q then { c with last_accessed := now }
            else c) ∧
      (get_cached_transcode s now m q).2.jobs = s.jobs ∧
      (get_cached_transcode s now m q).2.fs = s.fs ∧
      (get_cached_transcode s now m q).2.queue = s.queue) := by
  refine ⟨?_, ?_, ?_⟩
  · intro hnone
    unfold get_cached_transcode
    rw [hnone]
  · intro r hr hnf
    have heq : get_cached_transcode s now m q = (none, s) := by
      unfold get_cached_transcode
      rw [hr]
      simp only [if_neg hnf]
    refine ⟨heq, ?_⟩
    rw [heq]
    exact List.mem_of_find?_eq_some hr
  · intro r hr hf
    unfold get_cached_transcode
    rw [hr]
    simp [if_pos hf]

/-- Closed witness for the amended C2: the stale-row case at `c2State` and
the live-file case at a state where the file exists. -/
theorem C2_amended_witness :
    (get_cached_transcode c2State "t5" 1 "720p" = (none, c2State) ∧
      c2Row ∈ (get_cached_transcode c2State "t5" 1 "720p").2.cache) ∧
    (get_cached_transcode { c2State with fs := ["/cache/1_720p.mp4"] } "t5" 1 "720p").1
      = some c2Row.file_path := by
  constructor
  · exact (C2_amended c2State "t5" 1 "720p").2.1 c2Row (by decide) (by decide)
  · exact ((C2_amended { c2State with fs := ["/cache/1_720p.mp4"] } "t5" 1 "720p").2.2 c2Row
      (by decide) (by decide)).1

/-! ## Claim C3 — quality negotiation never upscales -/

/-- The if/elif ladder of `get_optimal_quality` computes exactly the
spec-side capability tier (smallest tier whose height bound covers the
source height). -/
lemma sourceQuality_eq_cap (h : Nat) :
    (if h ≤ 240 then "240p"
     else if h ≤ 360 then "360p"
     else if h ≤ 480 then "480p"
     else if h ≤ 720 then "720p"
     else if h ≤ 1080 then "1080p"
     else "4k") = spec_capability h := by
  unfold spec_capability qualityOrder
  split_ifs with h1 h2 h3 h4 h5 <;>
    by_cases h6 : h ≤ 1000000000 <;>
    simp [List.find?, tierBound, *]

/-- The capability tier is always one of the six known tiers. -/
lemma cap_cases (h : Nat) :
    spec_capability h = "240p" ∨ spec_capability h = "360p" ∨
    spec_capability h = "480p" ∨ spec_capability h = "720p" ∨
    spec_capability h = "1080p" ∨ spec_capability h = "4k" := by
  rw [← sourceQuality_eq_cap]
  split_ifs <;> simp

/-- Unfolding of `get_optimal_quality` on probe data with a video stream. -/
lemma get_optimal_quality_some (dur : Int) (wd ht : Nat) (r : String) :
    get_optimal_quality ⟨dur, some ⟨wd, ht⟩⟩ r
      = qualityOrder.getD
          (min (qualityOrder.indexOf (spec_capability ht)) (qualityOrder.indexOf r)) r := by
  rw [← sourceQuality_eq_cap]
  rfl

/-- C3 (confirmed): for requested tiers among the six known ones,
`get_optimal_quality` computes exactly the spec's
`min(requestedQuality, sourceCapabilityTier)` under the fixed ordering,
returns the requested tier unchanged when the probe found no video stream,
and never exceeds the requested tier or the source capability in the
ordering (no upscale). -/
theorem C3_no_upscale (media_info : MediaInfo) (requested_quality : String)
    (hreq : requested_quality ∈ qualityOrder) :
    get_optimal_quality media_info requested_quality
      = spec_resolveQuality media_info requested_quality ∧
    (media_info.video = none →
      get_optimal_quality media_info requested_quality = requested_quality) ∧
    (∀ v, media_info.video = some v →
      qualityOrder.indexOf (get_optimal_quality media_info requested_quality)
        ≤ qualityOrder.indexOf requested_quality ∧
      qualityOrder.indexOf (get_optimal_quality media_info requested_quality)
        ≤ qualityOrder.indexOf (spec_capability v.height)) := by
  obtain ⟨dur, vid⟩ := media_info
  cases vid with
  | none =>
    exact ⟨by simp [get_optimal_quality, spec_resolveQuality],
           fun _ => by simp [get_optimal_quality],
           fun w hw => by simp at hw⟩
  | some v =>
    obtain ⟨wd, ht⟩ := v
    rcases cap_cases ht with hc | hc | hc | hc | hc | hc <;>
      (refine ⟨?_, fun hw => by simp at hw, fun w hw => ?_⟩
       · rw [get_optimal_quality_some]
         simp only [spec_resolveQuality]
         rw [hc]
         fin_cases hreq <;> decide
       · injection hw with hw
         subst hw
         rw [get_optimal_quality_some, hc]
         fin_cases hreq <;> exact ⟨by decide, by decide⟩)

/-- Closed witness for C3: a 1080p-high source with a 4k request resolves
to 1080p (no upscale), and equals the spec-side resolution. -/
theorem C3_no_upscale_witness :
    "4k" ∈ qualityOrder ∧
    get_optimal_quality ⟨3600, some ⟨1920, 1080⟩⟩ "4k"
      = spec_resolveQuality ⟨3600, some ⟨1920, 1080⟩⟩ "4k" ∧
    qualityOrder.indexOf (get_optimal_quality ⟨3600, some ⟨1920, 1080⟩⟩ "4k")
      ≤ qualityOrder.indexOf (spec_capability 1080) := by
  refine ⟨by decide, ?_, ?_⟩
  · exact (C3_no_upscale ⟨3600, some ⟨1920, 1080⟩⟩ "4k" (by decide)).1
  · exact ((C3_no_upscale ⟨3600, some ⟨1920, 1080⟩⟩ "4k" (by decide)).2.2
      ⟨1920, 1080⟩ rfl).2

/-! ## Claim C4 — there is no encode timeout -/

/-- A fresh pending job 0 for media 7 at 720p, with the source file on
disk and nothing cached. -/
def c4Job : Job :=
  { media_id := 7, input_path := "/media/7.mkv", quality := "720p",
    status := .pending, progress := 0, error_message := none,
    started_at := none, completed_at := none, created_at := "t0",
    output_path := none }

/-- State with the single pending job 0 queued and an empty cache. -/
def c4State : TState :=
  { jobs := [(0, c4Job)], nextId := 1, cache := [], fs := ["/media/7.mkv"],
    queue := [0] }

/-- C4 counterexample: running `process_transcode_job` on the pending job 0
with an encoder that never exits (`hang` — `process.communicate()` never
returns, there being no timeout argument anywhere in the call), the
lasting observable state has the job still `processing`, not `failed`, and
with no error message: no forced termination and no `EncodeTimeout`
diagnostic ever happen, refuting the claimed maximum wall-clock duration. -/
theorem C4_counterexample :
    (findJob (process_transcode_job c4State "t1" 0 .hang).jobs 0).map Job.status
      = some JobStatus.processing ∧
    (findJob (process_transcode_job c4State "t1" 0 .hang).jobs 0).map Job.status
      ≠ some JobStatus.failed ∧
    (findJob (process_transcode_job c4State "t1" 0 .hang).jobs 0).map Job.error_message
      = some none := by
  decide

/-- C4 (amended): no timeout mechanism exists: a job in `Processing` state
stays in `Processing` under every system event other than its own
encoder exiting (`finishCommit`), for every state — in particular, while the
encoder hangs, no step ever moves the job to `Failed`. -/
theorem C4_no_timeout (K : Nat) (s : Sys) (e : Event) (j : Nat)
    (hst : jobStatus s j = some .processing) (hnf : ¬ isFinishOf e j) :
    jobStatus (stepE K s e) j = some .processing := by
  rcases hfind : findJob s.db.jobs j with _ | jb
  · rw [jobStatus, hfind] at hst
    simp at hst
  have hjb : jb.status = .processing := by
    rw [jobStatus, hfind] at hst
    simpa using hst
  cases e with
  | submit now m ip q =>
    simp only [stepE, jobStatus, queue_transcode]
    rw [findJob_append_left _ hfind]
    simp [hjb]
  | pick now =>
    simp only [stepE]
    cases hw : s.worker with
    | busy w => exact hst
    | finishing w => exact hst
    | idle =>
      by_cases hK : s.active.length < K
      case neg =>
        simp only [if_neg hK]
        exact hst
      simp only [if_pos hK]
      cases hq : s.db.queue with
      | nil => exact hst
      | cons j0 rest =>
        simp only []
        cases hf0 : findJob s.db.jobs j0 with
        | none => exact hst
        | some jb0 =>
          simp only []
          by_cases hst0 : jb0.status = .pending
          case neg =>
            simp only [ne_eq, hst0, not_false_eq_true, if_true]
            exact hst
          simp only [ne_eq, hst0, not_true_eq_false, if_false]
          have hne : j ≠ j0 := by
            intro hh
            rw [hh, hf0] at hfind
            injection hfind with hfind
            rw [hfind, hjb] at hst0
            exact JobStatus.noConfusion hst0
          rcases hgc : get_cached_transcode { s.db with queue := rest } now
              jb0.media_id jb0.quality with ⟨copt, db2⟩
          have hkeep := get_cached_keeps { s.db with queue := rest } now
            jb0.media_id jb0.quality
          rw [hgc] at hkeep
          have hdbj : db2.jobs = s.db.jobs := hkeep.1
          cases copt with
          | some path =>
            simp only [jobStatus, completeJob]
            rw [findJob_updateJob_ne _ _ hne, hdbj, hfind]
            simp [hjb]
          | none =>
            simp only [jobStatus, setProcessing]
            rw [findJob_updateJob_ne _ _ hne, hdbj, hfind]
            simp [hjb]
  | finishCommit j0 outcome now =>
    have hne : j ≠ j0 := by
      intro hh
      exact hnf ⟨outcome, now, by rw [hh]⟩
    simp only [stepE]
    by_cases hwk : s.worker = .busy j0
    case neg =>
      simp only [if_neg hwk]
      exact hst
    simp only [if_pos hwk]
    unfold applyFinish
    cases hf0 : findJob s.db.jobs j0 with
    | none => exact hst
    | some jb0 =>
      cases outcome with
      | hang => exact hst
      | ok path size dur =>
        simp only [jobStatus, finishOk, completeJob]
        rw [findJob_updateJob_ne _ _ hne, hfind]
        simp [hjb]
      | failed stderr tmpOut =>
        simp only [jobStatus, finishFailed]
        rw [findJob_updateJob_ne _ _ hne, hfind]
        simp [hjb]
  | finishRelease j0 =>
    simp only [stepE]
    by_cases hwk : s.worker = .finishing j0
    · simp only [if_pos hwk]
      exact hst
    · simp only [if_neg hwk]
      exact hst
  | monitorArm j0 =>
    simp only [stepE]
    by_cases hmem : j0 ∈ s.active
    · simp only [if_pos hmem]
      exact hst
    · simp only [if_neg hmem]
      exact hst
  | monitorWrite j0 v =>
    simp only [stepE]
    by_cases hmem : j0 ∈ s.monitors
    case neg =>
      simp only [if_neg hmem]
      exact hst
    simp only [if_pos hmem]
    by_cases hj0 : j0 = j
    · subst hj0
      simp only [jobStatus]
      rw [findJob_updateJob_self, hfind]
      simp [hjb]
    · simp only [jobStatus]
      rw [findJob_updateJob_ne _ _ (fun hh => hj0 hh.symm), hfind]
      simp [hjb]
  | janitor cutoff rf =>
    simp only [stepE, jobStatus]
    rw [(cleanup_keeps s.db cutoff rf).1, hfind]
    simp [hjb]

/-- The system after one submission and one worker pick: the worker is
blocked inside `process_transcode_job` on job 0, which is `processing`. -/
def c4Sys : Sys :=
  stepE 2 (stepE 2 sysInit (Event.submit "t0" 7 "/media/7.mkv" "720p")) (Event.pick "t1")

/-- Closed witness for the amended C4: at the concrete blocked system
state, a monitor write event leaves job 0 in `Processing`. -/
theorem C4_no_timeout_witness :
    jobStatus (stepE 2 c4Sys (Event.monitorWrite 0 55)) 0
      = some JobStatus.processing :=
  C4_no_timeout 2 c4Sys (Event.monitorWrite 0 55) 0 (by decide)
    (fun hh => by
      obtain ⟨o, n, hh⟩ := hh
      exact Event.noConfusion hh)

/-! ## Claim C5 — failure handling: generic message, leftover temp file -/

/-- C5 counterexample: processing the pending job 0 with an encoder that
exits non-zero, printing the diagnostic `"ffmpeg: width not divisible by
2"` to stderr and leaving the incomplete output file behind: the
incomplete file is NOT deleted (it is still on disk afterwards), and the
stored `error_message` is the fixed string `'Transcoding failed'` — the
whole resulting state is identical for a different stderr text, so no
diagnostic from the error stream is captured.  This refutes the claimed
temp-file deletion and stderr capture (the no-cache-entry part of the
claim does hold). -/
theorem C5_counterexample :
    "/tmp/out_720p.mkv"
      ∈ (process_transcode_job c4State "t1" 0
          (.failed "ffmpeg: width not divisible by 2" (some "/tmp/out_720p.mkv"))).fs ∧
    (findJob (process_transcode_job c4State "t1" 0
        (.failed "ffmpeg: width not divisible by 2" (some "/tmp/out_720p.mkv"))).jobs 0).map
      Job.error_message = some (some "Transcoding failed") ∧
    process_transcode_job c4State "t1" 0
        (.failed "ffmpeg: width not divisible by 2" (some "/tmp/out_720p.mkv"))
      = process_transcode_job c4State "t1" 0
          (.failed "a completely different diagnostic" (some "/tmp/out_720p.mkv")) := by
  decide

/-- C5 (amended): when the encoder of a pending, uncached job exits
non-zero, the job is marked `failed` with the fixed non-empty message
`'Transcoding failed'` (independent of the stderr text, which is only
printed); the incomplete output file, when ffmpeg left one, remains on
disk; and no cache row is added, so the cache lookup for that
(media_id, quality) still returns `None`. -/
theorem C5_failed_encode (s : TState) (now now2 : String) (jid : Nat) (jb : Job)
    (stderr : String) (tmp : Option String)
    (hf : findJob s.jobs jid = some jb) (hpend : jb.status = .pending)
    (hnorow : cacheRowFor s.cache jb.media_id jb.quality = none) :
    (findJob (process_transcode_job s now jid (.failed stderr tmp)).jobs jid).map
        Job.status = some JobStatus.failed ∧
    (findJob (process_transcode_job s now jid (.failed stderr tmp)).jobs jid).map
        Job.error_message = some (some "Transcoding failed") ∧
    "Transcoding failed" ≠ "" ∧
    (process_transcode_job s now jid (.failed stderr tmp)).cache = s.cache ∧
    (∀ p, tmp = some p → p ∈ (process_transcode_job s now jid (.failed stderr tmp)).fs) ∧
    (get_cached_transcode (process_transcode_job s now jid (.failed stderr tmp))
        now2 jb.media_id jb.quality).1 = none := by
  have hgc : get_cached_transcode s now jb.media_id jb.quality = (none, s) := by
    unfold get_cached_transcode
    rw [hnorow]
  have hred : process_transcode_job s now jid (.failed stderr tmp)
      = finishFailed (setProcessing s now jid) jid tmp := by
    unfold process_transcode_job
    rw [hf]
    simp only [ne_eq, hpend, not_true_eq_false, if_false]
    rw [hgc]
  rw [hred]
  refine ⟨?_, ?_, by decide, rfl, ?_, ?_⟩
  · simp only [finishFailed, setProcessing]
    rw [findJob_updateJob_self, findJob_updateJob_self, hf]
    rfl
  · simp only [finishFailed, setProcessing]
    rw [findJob_updateJob_self, findJob_updateJob_self, hf]
    rfl
  · intro p hp
    subst hp
    simp [finishFailed, setProcessing]
  · have hcache : (finishFailed (setProcessing s now jid) jid tmp).cache = s.cache := rfl
    unfold get_cached_transcode
    rw [hcache, hnorow]

/-- Closed witness for the amended C5 at the concrete pending job of
`c4State`. -/
theorem C5_failed_encode_witness :
    (findJob (process_transcode_job c4State "t1" 0
        (.failed "boom" (some "/tmp/part.mkv"))).jobs 0).map Job.status
      = some JobStatus.failed ∧
    "/tmp/part.mkv"
      ∈ (process_transcode_job c4State "t1" 0 (.failed "boom" (some "/tmp/part.mkv"))).fs ∧
    (get_cached_transcode (process_transcode_job c4State "t1" 0
        (.failed "boom" (some "/tmp/part.mkv"))) "t2" c4Job.media_id c4Job.quality).1
      = none := by
  have h := C5_failed_encode c4State "t1" "t2" 0 c4Job "boom" (some "/tmp/part.mkv")
    (by decide) (by decide) (by decide)
  exact ⟨h.1, h.2.2.2.2.1 "/tmp/part.mkv" rfl, h.2.2.2.2.2⟩

/-! ## Claim C6 — bounded concurrency and FIFO dequeue -/

/-- C6 (confirmed): in every reachable state the number of `processing`
jobs never exceeds `K = MAX_CONCURRENT_TRANSCODES`; moreover queueing is
FIFO: a submission appends the fresh job id at the tail of the queue, and
a worker iteration either leaves the queue unchanged or removes exactly
its head. -/
theorem C6_bounded_concurrency (K : Nat) (s : Sys) (h : Reachable K s) :
    countProcessing s.db ≤ K ∧
    (∀ now m ip q, (stepE K s (.submit now m ip q)).db.queue
        = s.db.queue ++ [s.db.nextId]) ∧
    (∀ now, (stepE K s (.pick now)).db.queue = s.db.queue ∨
            (stepE K s (.pick now)).db.queue = s.db.queue.tail) := by
  obtain ⟨hidle, hbusy, hfin, hnd, hlt⟩ := reachable_inv h
  refine ⟨?_, fun now m ip q => rfl, ?_⟩
  · cases hw : s.worker with
    | idle =>
      rw [(hidle hw).2]
      exact Nat.zero_le K
    | busy w =>
      obtain ⟨ha, hK, hst, hc⟩ := hbusy w hw
      rw [hc]
      exact hK
    | finishing w =>
      obtain ⟨ha, hK, hc⟩ := hfin w hw
      rw [hc]
      exact Nat.zero_le K
  · intro now
    cases hw : s.worker with
    | busy w =>
      left
      simp [stepE, hw]
    | finishing w =>
      left
      simp [stepE, hw]
    | idle =>
      by_cases hK : s.active.length < K
      case neg =>
        left
        simp [stepE, hw, hK]
      cases hq : s.db.queue with
      | nil =>
        left
        simp [stepE, hw, hK, hq]
      | cons j0 rest =>
        right
        simp only [stepE, hw, if_pos hK, hq]
        cases hf0 : findJob s.db.jobs j0 with
        | none => simp
        | some jb0 =>
          simp only []
          by_cases h0 : jb0.status = .pending
          · simp only [ne_eq, h0, not_true_eq_false, if_false]
            rcases hgc : get_cached_transcode { s.db with queue := rest } now
                jb0.media_id jb0.quality with ⟨copt, db2⟩
            have hkeep := get_cached_keeps { s.db with queue := rest } now
              jb0.media_id jb0.quality
            rw [hgc] at hkeep
            have hq2 : db2.queue = rest := hkeep.2.2.1
            cases copt <;> simp [completeJob, setProcessing, hq2]
          · simp [h0]

/-- Closed witness for C6 at the concrete reachable state `c4Sys` with
`K = 2`. -/
theorem C6_bounded_concurrency_witness :
    countProcessing c4Sys.db ≤ 2 ∧
    (stepE 2 c4Sys (Event.submit "t3" 8 "/media/8.mkv" "480p")).db.queue
      = c4Sys.db.queue ++ [c4Sys.db.nextId] ∧
    ((stepE 2 c4Sys (Event.pick "t3")).db.queue = c4Sys.db.queue ∨
     (stepE 2 c4Sys (Event.pick "t3")).db.queue = c4Sys.db.queue.tail) := by
  have hr : Reachable 2 c4Sys :=
    Reachable.step (Event.pick "t1")
      (Reachable.step (Event.submit "t0" 7 "/media/7.mkv" "720p") Reachable.init)
  have h := C6_bounded_concurrency 2 c4Sys hr
  exact ⟨h.1, h.2.1 "t3" 8 "/media/8.mkv" "480p", h.2.2 "t3"⟩

/-! ## Claim C9 — the worker is strictly sequential -/

/-- C9 (confirmed): in every reachable state, regardless of the value of
`MAX_CONCURRENT_TRANSCODES`, at most one entry is in `active_transcodes`
(at most one external encode process is running), and while the worker is
inside `process_transcode_job` (blocked on an encoder) a worker-loop
iteration dequeues nothing — the next job is picked only after the current
one finishes. -/
theorem C9_sequential_worker (K : Nat) (s : Sys) (h : Reachable K s) :
    s.active.length ≤ 1 ∧
    (∀ now, s.worker ≠ .idle → stepE K s (.pick now) = s) := by
  obtain ⟨hidle, hbusy, hfin, hnd, hlt⟩ := reachable_inv h
  constructor
  · cases hw : s.worker with
    | idle =>
      rw [(hidle hw).1]
      simp
    | busy w =>
      rw [(hbusy w hw).1]
      simp
    | finishing w =>
      rw [(hfin w hw).1]
      simp
  · intro now hj
    cases hw : s.worker with
    | idle => exact absurd hw hj
    | busy w => simp [stepE, hw]
    | finishing w => simp [stepE, hw]

/-- Closed witness for C9 at the concrete reachable state `c4Sys` (whose
worker is blocked on job 0) with `K = 2`. -/
theorem C9_sequential_worker_witness :
    c4Sys.active.length ≤ 1 ∧ stepE 2 c4Sys (.pick "t9") = c4Sys := by
  have hr : Reachable 2 c4Sys :=
    Reachable.step (Event.pick "t1")
      (Reachable.step (Event.submit "t0" 7 "/media/7.mkv" "720p") Reachable.init)
  have h := C9_sequential_worker 2 c4Sys hr
  exact ⟨h.1, h.2 "t9" (by decide)⟩

/-! ## Claim C7 — the janitor sweep -/

lemma cleanupStep_cache_subset (rf : String → Bool) (t : TState) (fp : String) :
    (cleanupStep rf t fp).cache ⊆ t.cache := by
  unfold cleanupStep
  split_ifs <;> simp [List.filter_subset]

lemma cleanup_foldl_cache_subset (rf : String → Bool) (L : List String) (t : TState) :
    (L.foldl (cleanupStep rf) t).cache ⊆ t.cache := by
  induction L generalizing t with
  | nil => exact fun _ h => h
  | cons fp rest ih =>
    simp only [List.foldl_cons]
    exact fun r hr => cleanupStep_cache_subset rf t fp (ih (cleanupStep rf t fp) hr)

lemma cleanupStep_keep_row (rf : String → Bool) (t : TState) (fp : String)
    {r : CacheRow} (hr : r ∈ t.cache) (hne : r.file_path ≠ fp) :
    r ∈ (cleanupStep rf t fp).cache := by
  unfold cleanupStep
  split_ifs <;> simp [List.mem_filter, hr, hne]

lemma cleanupStep_fs_iff (rf : String → Bool) (t : TState) (fp : String)
    {p : String} (hne : p ≠ fp) :
    (p ∈ (cleanupStep rf t fp).fs ↔ p ∈ t.fs) := by
  unfold cleanupStep
  split_ifs <;> simp [removeFile, List.mem_filter, hne]

lemma cleanup_loop_spec (rf : String → Bool) (L : List String) (hndL : L.Nodup) :
    ∀ (t : TState) (r : CacheRow), r ∈ t.cache →
    (r.file_path ∉ L → r ∈ (L.foldl (cleanupStep rf) t).cache) ∧
    (r.file_path ∈ L → r.file_path ∈ t.fs → rf r.file_path = true →
        r ∈ (L.foldl (cleanupStep rf) t).cache) ∧
    (r.file_path ∈ L → (r.file_path ∉ t.fs ∨ rf r.file_path = false) →
        r ∉ (L.foldl (cleanupStep rf) t).cache) := by
  induction L with
  | nil =>
    intro t r hr
    exact ⟨fun _ => hr, fun hm => absurd hm (List.not_mem_nil _),
           fun hm => absurd hm (List.not_mem_nil _)⟩
  | cons fp rest ih =>
    obtain ⟨hfp_rest, hndrest⟩ := List.nodup_cons.mp hndL
    intro t r hr
    by_cases hpe : r.file_path = fp
    · refine ⟨fun hnm => absurd (by rw [hpe]; exact List.mem_cons_self _ _) hnm, ?_, ?_⟩
      · intro _ hfs hrf
        have hstep : cleanupStep rf t fp = t := by
          unfold cleanupStep
          rw [if_pos (hpe ▸ hfs), if_pos (hpe ▸ hrf)]
        simp only [List.foldl_cons, hstep]
        exact ((ih hndrest) t r hr).1 (by rw [hpe]; exact hfp_rest)
      · intro _ hcond
        have hnotin : r ∉ (cleanupStep rf t fp).cache := by
          unfold cleanupStep
          rcases hcond with hno | hrf
          · rw [if_neg (hpe ▸ hno)]
            simp [List.mem_filter, hpe]
          · by_cases hfs : fp ∈ t.fs
            · rw [if_pos hfs, if_neg (by rw [← hpe, hrf]; exact Bool.false_ne_true)]
              simp [List.mem_filter, hpe]
            · rw [if_neg hfs]
              simp [List.mem_filter, hpe]
        intro hmemfinal
        simp only [List.foldl_cons] at hmemfinal
        exact hnotin (cleanup_foldl_cache_subset rf rest _ hmemfinal)
    · have hr' : r ∈ (cleanupStep rf t fp).cache := cleanupStep_keep_row rf t fp hr hpe
      have hfs' := cleanupStep_fs_iff rf t fp (p := r.file_path) hpe
      obtain ⟨i1, i2, i3⟩ := (ih hndrest) (cleanupStep rf t fp) r hr'
      refine ⟨?_, ?_, ?_⟩
      · intro hnm
        simp only [List.foldl_cons]
        exact i1 (fun hmm => hnm (List.mem_cons_of_mem _ hmm))
      · intro hm hfs hrf
        simp only [List.foldl_cons]
        have hm' : r.file_path ∈ rest := by
          rcases List.mem_cons.mp hm with he | hm'
          · exact absurd he hpe
          · exact hm'
        exact i2 hm' (hfs'.mpr hfs) hrf
      · intro hm hcond
        simp only [List.foldl_cons]
        have hm' : r.file_path ∈ rest := by
          rcases List.mem_cons.mp hm with he | hm'
          · exact absurd he hpe
          · exact hm'
        refine i3 hm' ?_
        rcases hcond with hno | hrf
        · exact Or.inl (fun hmm => hno (hfs'.mp hmm))
        · exact Or.inr hrf

/-- Builds the space-separated stamp SQLite's `CURRENT_TIMESTAMP` stores in
the `last_accessed` column: `'YYYY-MM-DD HH:MM:SS'` (UTC). -/
def sqliteStamp (date clock : String) : String := date ++ " " ++ clock

/-- Builds the `'T'`-separated string `datetime.isoformat()` produces for
the cutoff bound: `'YYYY-MM-DDTHH:MM:SS.ffffff'` (local time). -/
def isoStamp (date clock : String) : String := date ++ "T" ++ clock

lemma lex_space_T (d r1 r2 : List Char) :
    List.Lex (· < ·) (d ++ ' ' :: r1) (d ++ 'T' :: r2) := by
  induction d with
  | nil => exact List.Lex.rel (by decide)
  | cons c d' ih => exact List.Lex.cons ih

/-- Because `' '` sorts before `'T'`, every SQLite stamp of a given
calendar date compares lexicographically below every isoformat cutoff of
the same date, whatever the two times of day are — the janitor's TEXT
comparison ignores the time of day entirely on the cutoff's date. -/
lemma sqliteStamp_lt_isoStamp (date clock1 clock2 : String) :
    sqliteStamp date clock1 < isoStamp date clock2 := by
  unfold sqliteStamp isoStamp
  rw [String.lt_iff_toList_lt]
  show List.Lex (fun a b => a < b) ((date ++ " " ++ clock1).data)
    ((date ++ "T" ++ clock2).data)
  rw [String.data_append, String.data_append, String.data_append,
    String.data_append]
  rw [List.append_assoc, List.append_assoc]
  have h1 : (" " : String).data ++ clock1.data = ' ' :: clock1.data := rfl
  have h2 : ("T" : String).data ++ clock2.data = 'T' :: clock2.data := rfl
  rw [h1, h2]
  exact lex_space_T date.data clock1.data clock2.data

/-- The cutoff string the janitor binds into the `SELECT`, computed by
`(datetime.now() - timedelta(hours=max_age_hours)).isoformat()` — here an
instant at 13:00 on 2024-06-15. -/
def c7Cutoff : String := isoStamp "2024-06-15" "13:00:00.000000"

/-- A cache row last accessed at 14:00 on the cutoff's calendar date — one
hour AFTER the cutoff instant, i.e. with `lastAccessedAt ≥ now - t`. -/
def c7FreshRow : CacheRow :=
  { media_id := 2, quality := "480p", file_path := "/cache/2_480p.mp4",
    file_size := 7, duration := 0,
    created_at := sqliteStamp "2024-06-15" "09:00:00",
    last_accessed := sqliteStamp "2024-06-15" "14:00:00" }

/-- C7 counterexample, refuting both halves of the claim.  (a) A selected
stale row whose file exists but whose `os.remove` raises SURVIVES the
sweep — the `DELETE` sits after `os.remove` inside the same `try` block,
so the exception skips it: "deletes the row regardless of whether deleting
the underlying file succeeds" fails.  (b) A row last accessed at 14:00 on
the cutoff's calendar date — an hour after the 13:00 cutoff instant, so
chronologically fresh (its clock "14:00:00" is above the cutoff's clock
"13:00:00.000000") — is nevertheless selected and removed, because the
stored `'YYYY-MM-DD HH:MM:SS'` stamp compares lexicographically below the
`'YYYY-MM-DDT...'` cutoff at the `' '` versus `'T'` byte: "it never
removes a row with lastAccessedAt ≥ now - t" fails. -/
theorem C7_counterexample :
    (c2Row.last_accessed < c7Cutoff ∧
      c2Row ∈ (cleanup_old_transcodes
        { jobs := [], nextId := 0, cache := [c2Row],
          fs := ["/cache/1_720p.mp4"], queue := [] } c7Cutoff
        (fun _ => true)).cache) ∧
    (("13:00:00.000000" : String) < "14:00:00" ∧
      c7FreshRow ∉ (cleanup_old_transcodes
        { jobs := [], nextId := 0, cache := [c7FreshRow], fs := [], queue := [] }
        c7Cutoff (fun _ => false)).cache) := by
  decide

/-- C7 (amended): the sweep's `WHERE last_accessed < ?` is a lexicographic
TEXT comparison of the stored `'YYYY-MM-DD HH:MM:SS'` stamps against the
isoformat cutoff string, NOT a chronological comparison.  Assuming the
schema's UNIQUE `file_path` column: (i) a row whose stamp is
lexicographically ≥ the cutoff string is never removed; (ii) every
selected row whose file is already absent or whose `os.remove` succeeds is
removed — a failure on one entry does not abort the remaining entries;
(iii) a selected row whose file exists and whose `os.remove` raises is
kept (the row delete is skipped); and (iv) because `' '` sorts before
`'T'`, every row stamped on the cutoff's calendar date — even one accessed
after the cutoff instant, i.e. with `lastAccessedAt ≥ now - t` — is
selected, and is removed whenever its file deletion does not fail. -/
theorem C7_janitor_sweep (s : TState) (cutoff : String) (rf : String → Bool)
    (hnd : (s.cache.map CacheRow.file_path).Nodup) :
    (∀ r ∈ s.cache, ¬ (r.last_accessed < cutoff) →
        r ∈ (cleanup_old_transcodes s cutoff rf).cache) ∧
    (∀ r ∈ s.cache, r.last_accessed < cutoff →
        (r.file_path ∉ s.fs ∨ rf r.file_path = false) →
        r ∉ (cleanup_old_transcodes s cutoff rf).cache) ∧
    (∀ r ∈ s.cache, r.last_accessed < cutoff → r.file_path ∈ s.fs →
        rf r.file_path = true →
        r ∈ (cleanup_old_transcodes s cutoff rf).cache) ∧
    (∀ r ∈ s.cache, ∀ date clock1 clock2,
        r.last_accessed = sqliteStamp date clock1 →
        cutoff = isoStamp date clock2 →
        (r.file_path ∉ s.fs ∨ rf r.file_path = false) →
        r ∉ (cleanup_old_transcodes s cutoff rf).cache) := by
  have hndL : ((s.cache.filter (fun r => decide (r.last_accessed < cutoff))).map
      (·.file_path)).Nodup :=
    hnd.sublist ((List.filter_sublist _).map _)
  have h1 : ∀ r ∈ s.cache, ¬ (r.last_accessed < cutoff) →
      r ∈ (cleanup_old_transcodes s cutoff rf).cache := by
    intro r hr hfresh
    have hnm : r.file_path ∉ (s.cache.filter
        (fun r => decide (r.last_accessed < cutoff))).map (·.file_path) := by
      intro hmm
      obtain ⟨r', hr', heq⟩ := List.mem_map.mp hmm
      obtain ⟨hr'c, hr'old⟩ := List.mem_filter.mp hr'
      have : r' = r := List.inj_on_of_nodup_map hnd hr'c hr heq
      rw [this] at hr'old
      simp only [decide_eq_true_eq] at hr'old
      exact hfresh hr'old
    exact ((cleanup_loop_spec rf _ hndL) s r hr).1 hnm
  have h2 : ∀ r ∈ s.cache, r.last_accessed < cutoff →
      (r.file_path ∉ s.fs ∨ rf r.file_path = false) →
      r ∉ (cleanup_old_transcodes s cutoff rf).cache := by
    intro r hr hold hcond
    have hm : r.file_path ∈ (s.cache.filter
        (fun r => decide (r.last_accessed < cutoff))).map (·.file_path) :=
      List.mem_map.mpr ⟨r, List.mem_filter.mpr ⟨hr, by simpa using hold⟩, rfl⟩
    exact ((cleanup_loop_spec rf _ hndL) s r hr).2.2 hm hcond
  have h3 : ∀ r ∈ s.cache, r.last_accessed < cutoff → r.file_path ∈ s.fs →
      rf r.file_path = true →
      r ∈ (cleanup_old_transcodes s cutoff rf).cache := by
    intro r hr hold hfs hrf
    have hm : r.file_path ∈ (s.cache.filter
        (fun r => decide (r.last_accessed < cutoff))).map (·.file_path) :=
      List.mem_map.mpr ⟨r, List.mem_filter.mpr ⟨hr, by simpa using hold⟩, rfl⟩
    exact ((cleanup_loop_spec rf _ hndL) s r hr).2.1 hm hfs hrf
  refine ⟨h1, h2, h3, ?_⟩
  intro r hr date clock1 clock2 hstamp hcut hcond
  have hold : r.last_accessed < cutoff := by
    rw [hstamp, hcut]
    exact sqliteStamp_lt_isoStamp date clock1 clock2
  exact h2 r hr hold hcond

/-- Closed witness for the amended C7: a stale row whose `os.remove`
raises survives (iii); the same row is removed when deletion succeeds
(ii); a row stamped the day after the cutoff is kept (i); and the
chronologically fresh same-calendar-date row `c7FreshRow` is swept via the
format mismatch (iv). -/
theorem C7_janitor_sweep_witness :
    c2Row ∈ (cleanup_old_transcodes
      { jobs := [], nextId := 0, cache := [c2Row],
        fs := ["/cache/1_720p.mp4"], queue := [] } c7Cutoff
      (fun _ => true)).cache ∧
    c2Row ∉ (cleanup_old_transcodes
      { jobs := [], nextId := 0, cache := [c2Row],
        fs := ["/cache/1_720p.mp4"], queue := [] } c7Cutoff
      (fun _ => false)).cache ∧
    { c2Row with last_accessed := "2024-06-16 01:00:00" }
      ∈ (cleanup_old_transcodes
        { jobs := [], nextId := 0,
          cache := [{ c2Row with last_accessed := "2024-06-16 01:00:00" }],
          fs := ["/cache/1_720p.mp4"], queue := [] } c7Cutoff
        (fun _ => false)).cache ∧
    c7FreshRow ∉ (cleanup_old_transcodes
      { jobs := [], nextId := 0, cache := [c7FreshRow], fs := [], queue := [] }
      c7Cutoff (fun _ => false)).cache := by
  refine ⟨?_, ?_, ?_, ?_⟩
  · exact (C7_janitor_sweep _ c7Cutoff (fun _ => true) (by decide)).2.2.1 c2Row
      (by decide) (by decide) (by decide) (by decide)
  · exact (C7_janitor_sweep _ c7Cutoff (fun _ => false) (by decide)).2.1 c2Row
      (by decide) (by decide) (Or.inr rfl)
  · exact (C7_janitor_sweep _ c7Cutoff (fun _ => false) (by decide)).1 _
      (by decide) (by decide)
  · exact (C7_janitor_sweep _ c7Cutoff (fun _ => false) (by decide)).2.2.2 c7FreshRow
      (by decide) "2024-06-15" "14:00:00" "13:00:00.000000" rfl rfl (Or.inl (by decide))

/-! ## Claim C8 — the job state machine -/

/-- A pending job for media 1 at 720p whose rendition is already cached
with the file on disk. -/
def c8State : TState :=
  { jobs := [(0, { media_id := 1, input_path := "/m/1.mp4", quality := "720p",
                   status := .pending, progress := 0, error_message := none,
                   started_at := none, completed_at := none,
                   created_at := "2024-06-10 08:00:00",
                   output_path := none })],
    nextId := 1,
    cache := [{ media_id := 1, quality := "720p", file_path := "/c/1_720p.mp4",
                file_size := 5, duration := 0,
                created_at := "2024-06-10 08:00:00",
                last_accessed := "2024-06-10 08:00:00" }],
    fs := ["/c/1_720p.mp4"], queue := [0] }

/-- The system after submit, pick, a monitor arming itself on job 0, and a
successful terminal commit: job 0 is `completed` with progress 100, the
worker sits in its `finally` window, and the armed monitor's `UPDATE` is
still outstanding. -/
def c8Trace : Sys :=
  stepE 2 (stepE 2 (stepE 2 (stepE 2 sysInit
    (Event.submit "t0" 7 "/media/7.mkv" "720p"))
    (Event.pick "t1"))
    (Event.monitorArm 0))
    (Event.finishCommit 0 (.ok "/tmp/out.mkv" 9 3600) "t2")

/-- C8 counterexample, refuting both halves of the claim.  (a) On a
rendition-cache hit `process_transcode_job` moves job 0 directly from
`Pending` to `Completed`, a transition absent from the claimed
`Pending → Processing → {Completed | Failed}` state machine (the job never
passes through `Processing`).  (b) Terminal states are NOT immutable: a
monitor thread that passed its `active_transcodes` membership check while
job 0 was still encoding can have its unguarded progress `UPDATE` execute
only after the terminal commit (its `time.sleep(2)` plus the SQLite write
lock delay it arbitrarily), and that write drags the `Completed` job's
progress from 100 back to `min(90, 55) = 55`. -/
theorem C8_counterexample :
    ((findJob c8State.jobs 0).map Job.status = some JobStatus.pending ∧
     (findJob (process_transcode_job c8State "t1" 0 (.failed "" none)).jobs 0).map
       Job.status = some JobStatus.completed ∧
     specAllowedTransition JobStatus.pending JobStatus.completed = false) ∧
    ((findJob c8Trace.db.jobs 0).map Job.status = some JobStatus.completed ∧
     (findJob c8Trace.db.jobs 0).map Job.progress = some 100 ∧
     (findJob (stepE 2 c8Trace (Event.monitorWrite 0 55)).db.jobs 0).map
       Job.progress = some 55 ∧
     (findJob (stepE 2 c8Trace (Event.monitorWrite 0 55)).db.jobs 0).map
       Job.status = some JobStatus.completed) := by
  decide

/-- Helper for the branches of the terminal-immutability proof in which
the step leaves job `j`'s row untouched: both conjuncts hold, for any side
condition `P`. -/
lemma terminalImmutableUnchanged {o : Option Job} {jb : Job} (P : Prop)
    (hkeep : o = some jb) :
    ((jb.status = .completed ∨ jb.status = .failed) →
      (∃ p, o = some { jb with progress := p }) ∧ (¬ P → o = some jb)) ∧
    (∀ jb', o = some jb' →
      jb'.status = jb.status ∨ codeTransition jb.status jb'.status = true) := by
  refine ⟨fun _ => ⟨⟨jb.progress, hkeep⟩, fun _ => hkeep⟩, fun jb' hjb' => ?_⟩
  rw [hkeep] at hjb'
  injection hjb' with hjb'
  exact Or.inl (by rw [hjb'])

/-- C8 (amended): in every reachable state, (i) a job in a terminal state
(`Completed`/`Failed`) keeps its status and every field other than
`progress` under every subsequent event, and is changed at all only by an
already-outstanding monitor progress `UPDATE` — any event that is not a
monitor write leaves the record entirely unchanged; and (ii) every status
change follows the code's transition list: the spec's `Pending →
Processing → {Completed | Failed}` plus the direct `Pending → Completed`
cache-hit shortcut; in particular no event ever changes the STATUS of a
terminal job. -/
theorem C8_terminal_immutable (K : Nat) (s : Sys) (hreach : Reachable K s)
    (e : Event) (j : Nat) (jb : Job) (hf : findJob s.db.jobs j = some jb) :
    ((jb.status = .completed ∨ jb.status = .failed) →
      (∃ p, findJob (stepE K s e).db.jobs j = some { jb with progress := p }) ∧
      (¬ isMonitorWrite e → findJob (stepE K s e).db.jobs j = some jb)) ∧
    (∀ jb', findJob (stepE K s e).db.jobs j = some jb' →
      jb'.status = jb.status ∨ codeTransition jb.status jb'.status = true) := by
  obtain ⟨hidle, hbusy, hfin, hnd, hlt⟩ := reachable_inv hreach
  cases e with
  | submit now m ip q =>
    have hkeep : findJob (stepE K s (.submit now m ip q)).db.jobs j = some jb := by
      simp only [stepE, queue_transcode]
      exact findJob_append_left _ hf
    exact terminalImmutableUnchanged _ hkeep
  | janitor cutoff rf =>
    have hkeep : findJob (stepE K s (.janitor cutoff rf)).db.jobs j = some jb := by
      simp only [stepE]
      rw [(cleanup_keeps s.db cutoff rf).1]
      exact hf
    exact terminalImmutableUnchanged _ hkeep
  | finishRelease j0 =>
    simp only [stepE]
    by_cases hwk : s.worker = .finishing j0
    · simp only [if_pos hwk]
      exact terminalImmutableUnchanged _ hf
    · simp only [if_neg hwk]
      exact terminalImmutableUnchanged _ hf
  | monitorArm j0 =>
    simp only [stepE]
    by_cases hmem : j0 ∈ s.active
    · simp only [if_pos hmem]
      exact terminalImmutableUnchanged _ hf
    · simp only [if_neg hmem]
      exact terminalImmutableUnchanged _ hf
  | monitorWrite j0 v =>
    simp only [stepE]
    by_cases hmem : j0 ∈ s.monitors
    case neg =>
      simp only [if_neg hmem]
      exact terminalImmutableUnchanged _ hf
    simp only [if_pos hmem]
    by_cases hj0 : j0 = j
    · subst hj0
      have hkeep : findJob (updateJob s.db.jobs j0
          (fun jb => { jb with progress := min 90 v })) j0
            = some { jb with progress := min 90 v } := by
        rw [findJob_updateJob_self, hf]
        rfl
      refine ⟨fun _ => ⟨⟨min 90 v, hkeep⟩, fun hmw => (hmw ⟨j0, v, rfl⟩).elim⟩,
        fun jb' hjb' => ?_⟩
      rw [hkeep] at hjb'
      injection hjb' with hjb'
      subst hjb'
      exact Or.inl rfl
    · have hkeep := findJob_updateJob_ne s.db.jobs
        (fun jb => { jb with progress := min 90 v }) (fun hh => hj0 hh.symm)
      rw [hf] at hkeep
      exact terminalImmutableUnchanged _ hkeep
  | finishCommit j0 outcome now =>
    simp only [stepE]
    by_cases hwk : s.worker = .busy j0
    case neg =>
      simp only [if_neg hwk]
      exact terminalImmutableUnchanged _ hf
    simp only [if_pos hwk]
    obtain ⟨hact, hK1, hstat, hcnt⟩ := hbusy j0 hwk
    rcases hf0 : findJob s.db.jobs j0 with _ | jb0
    · rw [jobStatus, hf0] at hstat
      simp at hstat
    have hjb0 : jb0.status = .processing := by
      rw [jobStatus, hf0] at hstat
      simpa using hstat
    unfold applyFinish
    rw [hf0]
    cases outcome with
    | hang => exact terminalImmutableUnchanged _ hf
    | ok path size dur =>
      by_cases hj0 : j0 = j
      · subst hj0
        have hjbeq : jb0 = jb := by
          rw [hf] at hf0
          injection hf0 with hf0
          exact hf0.symm
        subst hjbeq
        have hkeep :
            findJob (finishOk s.db now j0 jb0.media_id jb0.quality path size dur).jobs j0
              = some { jb0 with
                  status := JobStatus.completed,
                  output_path := some path,
                  progress := 100,
                  completed_at := some now } := by
          simp only [finishOk, completeJob]
          rw [findJob_updateJob_self, hf]
          rfl
        refine ⟨fun hterm => False.elim ?_, fun jb' hjb' => ?_⟩
        · rcases hterm with h | h <;> rw [h] at hjb0 <;> exact JobStatus.noConfusion hjb0
        · rw [hkeep] at hjb'
          injection hjb' with hjb'
          subst hjb'
          rw [hjb0]
          exact Or.inr rfl
      · have hkeep : findJob (finishOk s.db now j0 jb0.media_id jb0.quality
            path size dur).jobs j = some jb := by
          simp only [finishOk, completeJob]
          rw [findJob_updateJob_ne _ _ (fun hh => hj0 hh.symm)]
          exact hf
        exact terminalImmutableUnchanged _ hkeep
    | failed stderr tmpOut =>
      by_cases hj0 : j0 = j
      · subst hj0
        have hjbeq : jb0 = jb := by
          rw [hf] at hf0
          injection hf0 with hf0
          exact hf0.symm
        subst hjbeq
        have hkeep :
            findJob (finishFailed s.db j0 tmpOut).jobs j0
              = some { jb0 with
                  status := JobStatus.failed,
                  error_message := some "Transcoding failed" } := by
          simp only [finishFailed]
          rw [findJob_updateJob_self, hf]
          rfl
        refine ⟨fun hterm => False.elim ?_, fun jb' hjb' => ?_⟩
        · rcases hterm with h | h <;> rw [h] at hjb0 <;> exact JobStatus.noConfusion hjb0
        · rw [hkeep] at hjb'
          injection hjb' with hjb'
          subst hjb'
          rw [hjb0]
          exact Or.inr rfl
      · have hkeep : findJob (finishFailed s.db j0 tmpOut).jobs j = some jb := by
          simp only [finishFailed]
          rw [findJob_updateJob_ne _ _ (fun hh => hj0 hh.symm)]
          exact hf
        exact terminalImmutableUnchanged _ hkeep
  | pick now =>
    simp only [stepE]
    cases hw : s.worker with
    | busy w => exact terminalImmutableUnchanged _ hf
    | finishing w => exact terminalImmutableUnchanged _ hf
    | idle =>
      by_cases hK : s.active.length < K
      case neg =>
        simp only [if_neg hK]
        exact terminalImmutableUnchanged _ hf
      simp only [if_pos hK]
      cases hq : s.db.queue with
      | nil => exact terminalImmutableUnchanged _ hf
      | cons j0 rest =>
        simp only []
        cases hf0 : findJob s.db.jobs j0 with
        | none => exact terminalImmutableUnchanged _ hf
        | some jb0 =>
          simp only []
          by_cases hst0 : jb0.status = .pending
          case neg =>
            simp only [ne_eq, hst0, not_false_eq_true, if_true]
            exact terminalImmutableUnchanged _ hf
          simp only [ne_eq, hst0, not_true_eq_false, if_false]
          rcases hgc : get_cached_transcode { s.db with queue := rest } now
              jb0.media_id jb0.quality with ⟨copt, db2⟩
          have hkeepdb := get_cached_keeps { s.db with queue := rest } now
            jb0.media_id jb0.quality
          rw [hgc] at hkeepdb
          have hdbj : db2.jobs = s.db.jobs := hkeepdb.1
          cases copt with
          | some path =>
            by_cases hj0 : j0 = j
            · subst hj0
              have hjbeq : jb0 = jb := by
                rw [hf] at hf0
                injection hf0 with hf0
                exact hf0.symm
              subst hjbeq
              have hkeep :
                  findJob (completeJob db2 now j0 path).jobs j0
                    = some { jb0 with
                        status := JobStatus.completed,
                        output_path := some path,
                        progress := 100,
                        completed_at := some now } := by
                simp only [completeJob]
                rw [findJob_updateJob_self, hdbj, hf]
                rfl
              refine ⟨fun hterm => False.elim ?_, fun jb' hjb' => ?_⟩
              · rcases hterm with h | h <;> rw [h] at hst0 <;>
                  exact JobStatus.noConfusion hst0
              · rw [hkeep] at hjb'
                injection hjb' with hjb'
                subst hjb'
                rw [hst0]
                exact Or.inr rfl
            · have hkeep : findJob (completeJob db2 now j0 path).jobs j = some jb := by
                simp only [completeJob]
                rw [findJob_updateJob_ne _ _ (fun hh => hj0 hh.symm), hdbj]
                exact hf
              exact terminalImmutableUnchanged _ hkeep
          | none =>
            by_cases hj0 : j0 = j
            · subst hj0
              have hjbeq : jb0 = jb := by
                rw [hf] at hf0
                injection hf0 with hf0
                exact hf0.symm
              subst hjbeq
              have hkeep :
                  findJob (setProcessing db2 now j0).jobs j0
                    = some { jb0 with
                        status := JobStatus.processing,
                        started_at := some now } := by
                simp only [setProcessing]
                rw [findJob_updateJob_self, hdbj, hf]
                rfl
              refine ⟨fun hterm => False.elim ?_, fun jb' hjb' => ?_⟩
              · rcases hterm with h | h <;> rw [h] at hst0 <;>
                  exact JobStatus.noConfusion hst0
              · rw [hkeep] at hjb'
                injection hjb' with hjb'
                subst hjb'
                rw [hst0]
                exact Or.inr rfl
            · have hkeep : findJob (setProcessing db2 now j0).jobs j = some jb := by
                simp only [setProcessing]
                rw [findJob_updateJob_ne _ _ (fun hh => hj0 hh.symm), hdbj]
                exact hf
              exact terminalImmutableUnchanged _ hkeep

/-- The completed record of job 0 in `c8Trace`. -/
def c8DoneJob : Job :=
  { media_id := 7, input_path := "/media/7.mkv", quality := "720p",
    status := .completed, progress := 100, error_message := none,
    started_at := some "t1", completed_at := some "t2", created_at := "t0",
    output_path := some "/tmp/out.mkv" }

/-- Closed witness for the amended C8: at the reachable state `c8Trace`
(job 0 completed, hence terminal), a further submission — not a monitor
write — leaves job 0's record entirely unchanged. -/
theorem C8_terminal_immutable_witness :
    findJob (stepE 2 c8Trace (Event.submit "t3" 9 "/media/9.avi" "480p")).db.jobs 0
      = some c8DoneJob := by
  have hr : Reachable 2 c8Trace :=
    Reachable.step (Event.finishCommit 0 (.ok "/tmp/out.mkv" 9 3600) "t2")
      (Reachable.step (Event.monitorArm 0)
        (Reachable.step (Event.pick "t1")
          (Reachable.step (Event.submit "t0" 7 "/media/7.mkv" "720p")
            Reachable.init)))
  exact ((C8_terminal_immutable 2 c8Trace hr
      (Event.submit "t3" 9 "/media/9.avi" "480p") 0 c8DoneJob (by decide)).1
    (by decide)).2
    (fun hmw => by
      obtain ⟨j0, v0, hh⟩ := hmw
      exact Event.noConfusion hh)

/-! ## Claim C10 — available qualities ignore the disk -/

/-- A state with a cache row for (4, "1080p") whose file is gone from
disk. -/
def c10State : TState :=
  { jobs := [], nextId := 0,
    cache := [{ media_id := 4, quality := "1080p",
                file_path := "/cache/4_1080p.mp4", file_size := 9,
                duration := 0, created_at := "2024-06-10 08:00:00",
                last_accessed := "2024-06-10 08:00:00" }],
    fs := [], queue := [] }

/-- C10 (confirmed): `get_available_qualities` lists a quality purely from
the cache table, without checking the disk — at `c10State` it reports
"1080p" as available for media 4 while `get_cached_transcode` for the very
same pair returns `None` because the file is missing. -/
theorem C10_stale_availability :
    "1080p" ∈ get_available_qualities c10State 4 ∧
    (get_cached_transcode c10State "t9b" 4 "1080p").1 = none := by
  decide

end WatchMedia
